import Mathlib

/-!
# Verification of the pepper editor's buffer, command and LSP subsystems

A shallow embedding, in Lean 4, of the parts of the pepper text editor that
the specification's claims are about:

* the buffer-line model with its cached character count (`src/buffer.rs`,
  `BufferLine` and `BufferLinePool`);
* the line-indexed buffer content with `insert_text` / `delete_range` and the
  undo history replay (`src/buffer.rs`, `BufferContent` and `Buffer`);
* `find_delimiter_pair_at` (`src/buffer.rs`);
* the `open` and `reopen-all` builtin commands (`pepper/src/command/builtins.rs`);
* the command tokenizer and parser (`lib/command.rs`);
* the LSP pending-request table (`src/lsp/protocol.rs`) and the pending
  `didChange` flush (`src/lsp/client.rs`);
* the UTF-8 residual reassembler (`pepper/src/editor_utils.rs`).

Strings are modelled as lists of bytes (`List Nat`, each element `< 256`)
except where a function inspects decoded characters, in which case the text is
a `List Char` and byte offsets are recomputed from `Char.utf8Size`.
-/

namespace Pepper

/-- `is_char_boundary` from `pepper/src/editor_utils.rs`: `(b as i8) >= -0x40`,
i.e. the byte is not a UTF-8 continuation byte. -/
def is_char_boundary (b : Nat) : Bool :=
  b < 128 || 192 ≤ b

/-- The number of Unicode scalar values in a valid UTF-8 byte string: each
scalar value contributes exactly one non-continuation byte, so Rust's
`text.chars().count()` equals the number of char-boundary bytes. -/
def charsCount (t : List Nat) : Nat :=
  t.countP is_char_boundary

/-! ## BufferLine and BufferLinePool (`src/buffer.rs` lines 125-276) -/

/-- `BufferLine` from `src/buffer.rs`: the line's byte text plus a cached
character count. -/
structure BufferLine where
  text : List Nat
  char_count : Nat
  deriving Repr, DecidableEq

/-- `BufferLinePool` from `src/buffer.rs`: a stack of disposed lines.  The head
of the list is the top of the stack (the `Vec`'s end). -/
structure BufferLinePool where
  pool : List BufferLine
  deriving Repr, DecidableEq

/-- `BufferLinePool::rent`: pop a pooled line, clearing its text (but, exactly
as in the source, not resetting its `char_count`), or make a fresh line. -/
def BufferLinePool.rent (p : BufferLinePool) : BufferLinePool × BufferLine :=
  match p.pool with
  | [] => (⟨[]⟩, ⟨[], 0⟩)
  | line :: rest => (⟨rest⟩, { line with text := [] })

/-- `BufferLinePool::dispose`: push a line back onto the pool. -/
def BufferLinePool.dispose (p : BufferLinePool) (line : BufferLine) : BufferLinePool :=
  ⟨line :: p.pool⟩

/-- `BufferLine::push_text`: append text, adding its character count. -/
def BufferLine.push_text (l : BufferLine) (t : List Nat) : BufferLine :=
  { text := l.text ++ t, char_count := l.char_count + charsCount t }

/-- `BufferLine::insert_text`: `self.text.insert_str(index, text)` followed by
`self.char_count += text.chars().count()`. -/
def BufferLine.insert_text (l : BufferLine) (index : Nat) (t : List Nat) : BufferLine :=
  { text := l.text.take index ++ t ++ l.text.drop index,
    char_count := l.char_count + charsCount t }

/-- `BufferLine::delete_range` for the range `a..b`:
`self.char_count -= self.text.drain(range).count()` (the drain iterator yields
the removed characters). -/
def BufferLine.delete_range (l : BufferLine) (a b : Nat) : BufferLine :=
  { text := l.text.take a ++ l.text.drop b,
    char_count := l.char_count - charsCount ((l.text.drop a).take (b - a)) }

/-- `BufferLine::split_off`: rent a line from the pool, push the tail text onto
it, truncate the original and subtract the new line's count. -/
def BufferLine.split_off (l : BufferLine) (p : BufferLinePool) (index : Nat) :
    BufferLine × BufferLinePool × BufferLine :=
  let (p', rented) := p.rent
  let new_line := rented.push_text (l.text.drop index)
  ({ text := l.text.take index, char_count := l.char_count - new_line.char_count },
    p', new_line)

/-- The operations of claim C10 on a collection of live lines sharing a pool:
`rent`, `push_text`, `insert_text`, `delete_range` and `split_off`.  Indices
pick the live line operated on. -/
inductive LineOp where
  | rent
  | push_text (i : Nat) (t : List Nat)
  | insert_text (i index : Nat) (t : List Nat)
  | delete_range (i a b : Nat)
  | split_off (i index : Nat)
  deriving Repr, DecidableEq

/-- State for claim C10: the pool plus the live lines produced so far. -/
structure LineState where
  pool : BufferLinePool
  lines : List BufferLine
  deriving Repr, DecidableEq

/-- Apply one line operation.  Out-of-range line indices leave the state
unchanged (the Rust code would panic; no claim concerns that case). -/
def stepLine (s : LineState) : LineOp → LineState
  | .rent =>
    let (p', line) := s.pool.rent
    ⟨p', s.lines ++ [line]⟩
  | .push_text i t =>
    if h : i < s.lines.length then
      { s with lines := s.lines.set i ((s.lines.get ⟨i, h⟩).push_text t) }
    else s
  | .insert_text i index t =>
    if h : i < s.lines.length then
      { s with lines := s.lines.set i ((s.lines.get ⟨i, h⟩).insert_text index t) }
    else s
  | .delete_range i a b =>
    if h : i < s.lines.length then
      { s with lines := s.lines.set i ((s.lines.get ⟨i, h⟩).delete_range a b) }
    else s
  | .split_off i index =>
    if h : i < s.lines.length then
      let (self', p', new_line) := (s.lines.get ⟨i, h⟩).split_off s.pool index
      ⟨p', (s.lines.set i self') ++ [new_line]⟩
    else s

/-- Run a sequence of line operations from a state. -/
def runLineOps (s : LineState) : List LineOp → LineState
  | [] => s
  | op :: ops => runLineOps (stepLine s op) ops

/-- The initial state of claim C10: empty pool (`BufferLinePool::default()`),
no lines. -/
def initLineState : LineState := ⟨⟨[]⟩, []⟩

/-- A line-operation list is valid when every `delete_range` has an ordered
range (`String::drain` panics otherwise). -/
def validLineOps (ops : List LineOp) : Bool :=
  ops.all fun op =>
    match op with
    | .delete_range _ a b => a ≤ b
    | _ => true

/-- The cached-count invariant of claim C10. -/
def lineCountOk (l : BufferLine) : Bool :=
  l.char_count = charsCount l.text

/-! ## Pending LSP requests (`src/lsp/protocol.rs` lines 233-362) -/

/-- `PendingRequest` from `src/lsp/protocol.rs`: an id plus its method
(methods are abstracted to numeric tags). -/
structure PendingRequest where
  id : Nat
  method : Nat
  deriving Repr, DecidableEq

/-- `PendingRequestColection` (spelled as in the source). -/
structure PendingRequestColection where
  pending_requests : List PendingRequest
  deriving Repr, DecidableEq

/-- The loop of `PendingRequestColection::add`: overwrite the first free slot
(`id == 0`), else push at the end. -/
def addRequestGo (id method : Nat) : List PendingRequest → List PendingRequest
  | [] => [⟨id, method⟩]
  | r :: rest =>
    if r.id = 0 then ⟨id, method⟩ :: rest else r :: addRequestGo id method rest

/-- `PendingRequestColection::add`. -/
def PendingRequestColection.add (c : PendingRequestColection) (id method : Nat) :
    PendingRequestColection :=
  ⟨addRequestGo id method c.pending_requests⟩

/-- The loop of `PendingRequestColection::take`: zero the id of the first
entry whose id matches and return its method; `None` if no entry matches. -/
def takeRequestGo (id : Nat) : List PendingRequest → Option Nat × List PendingRequest
  | [] => (none, [])
  | r :: rest =>
    if r.id = id then (some r.method, { r with id := 0 } :: rest)
    else
      let (m, rest') := takeRequestGo id rest
      (m, r :: rest')

/-- `PendingRequestColection::take`. -/
def PendingRequestColection.take (c : PendingRequestColection) (id : Nat) :
    Option Nat × PendingRequestColection :=
  let (m, rest) := takeRequestGo id c.pending_requests
  (m, ⟨rest⟩)

/-- The ids of live entries (id 0 marks a free slot). -/
def liveIds : List PendingRequest → List Nat
  | [] => []
  | r :: rest => if r.id = 0 then liveIds rest else r.id :: liveIds rest

/-- The request-correlation state: `Protocol::next_request_id` (starts at 1,
incremented by `Protocol::request`) plus the client's pending-request table. -/
structure LspRequestState where
  next_request_id : Nat
  pending : PendingRequestColection
  deriving Repr, DecidableEq

/-- Initial state: `Protocol::new` sets `next_request_id` to 1 and the table
is empty. -/
def initLspRequestState : LspRequestState := ⟨1, ⟨[]⟩⟩

/-- The two events that touch the table: `Client::request` (which sends via
`Protocol::request` and records the fresh id) and `Client::on_response`
(which dispatches via `take`, ignoring unmatched ids). -/
inductive LspRequestOp where
  | request (method : Nat)
  | response (id : Nat)
  deriving Repr, DecidableEq

/-- Apply one request/response event. -/
def stepLspRequest (s : LspRequestState) : LspRequestOp → LspRequestState
  | .request method =>
    let id := s.next_request_id
    ⟨id + 1, s.pending.add id method⟩
  | .response id => ⟨s.next_request_id, (s.pending.take id).2⟩

/-- Run a sequence of request/response events. -/
def runLspRequest (s : LspRequestState) : List LspRequestOp → LspRequestState
  | [] => s
  | op :: ops => runLspRequest (stepLspRequest s op) ops


/-! ## `find_delimiter_pair_at` (`src/buffer.rs` lines 527-563) -/

/-- Rust's `str::char_indices` over a character list, starting at byte
offset `k`: each character is paired with its byte offset. -/
def charIndicesFrom (k : Nat) : List Char → List (Nat × Char)
  | [] => []
  | c :: rest => (k, c) :: charIndicesFrom (k + c.utf8Size) rest

/-- `char_indices` from byte offset 0. -/
def charIndices (line : List Char) : List (Nat × Char) :=
  charIndicesFrom 0 line

/-- The UTF-8 byte length of a character list. -/
def utf8Len (line : List Char) : Nat :=
  (line.map Char.utf8Size).sum

/-- The loop of `BufferContent::find_delimiter_pair_at`: scan `(i, c)` pairs,
toggling `is_right_delim` and recording `last_i` at each delimiter; at the
first delimiter with `i >= col`, return the enclosing pair if it closes one,
keep scanning if the cursor sits exactly on it, and give up otherwise. -/
def findDelimGo (col : Nat) (delimiter : Char) :
    List (Nat × Char) → Bool → Nat → Option (Nat × Nat)
  | [], _, _ => none
  | (i, c) :: rest, is_right_delim, last_i =>
    if c ≠ delimiter then findDelimGo col delimiter rest is_right_delim last_i
    else if col ≤ i then
      if is_right_delim then some (last_i + delimiter.utf8Size, i)
      else if i ≠ col then none
      else findDelimGo col delimiter rest (!is_right_delim) i
    else findDelimGo col delimiter rest (!is_right_delim) i

/-- `BufferContent::find_delimiter_pair_at` restricted to the scanned line:
the position's column is clamped to the line's byte length and the returned
byte-column pair is the range between the delimiters. -/
def find_delimiter_pair_at (line : List Char) (col : Nat) (delimiter : Char) :
    Option (Nat × Nat) :=
  findDelimGo (min col (utf8Len line)) delimiter (charIndices line) false 0

/-- The byte offsets of the delimiter occurrences of a line, in order. -/
def delimOccurrences (line : List Char) (delimiter : Char) : List Nat :=
  (charIndices line).filterMap fun ic =>
    if ic.2 = delimiter then some ic.1 else none


/-! ## Command tokenizer and parser (`lib/command.rs` lines 337-639) -/

/-- `MAX_OTHER_VALUES_LEN` from `lib/command.rs`. -/
def MAX_OTHER_VALUES_LEN : Nat := 8

/-- `char::is_ascii_whitespace`. -/
def isAsciiWhitespaceChar (c : Char) : Bool :=
  c = ' ' || c = '\t' || c = '\n' || c = '\x0c' || c = '\r'

/-- `is_separator` from `CommandTokenIter::next`. -/
def is_separator (c : Char) : Bool :=
  isAsciiWhitespaceChar c || c = '=' || c = '!' || c = '"' || c = '\''

/-- `CommandTokenKind` from `lib/command.rs`. -/
inductive CommandTokenKind where
  | Text
  | Flag
  | Equals
  | Bang
  | Unterminated
  deriving Repr, DecidableEq

/-- `next_token` from `CommandTokenIter::next`: trim whitespace and
line-continuation backslashes, then dispatch on the first character.  Returns
the token kind, the token's characters and the remaining input. -/
def next_token (input : List Char) : Option (CommandTokenKind × List Char × List Char) :=
  let rest := input.dropWhile fun c => isAsciiWhitespaceChar c || c = '\\'
  match rest with
  | [] => none
  | c :: rest' =>
    if c = '-' then
      some (.Flag, rest'.takeWhile (fun x => !is_separator x),
        rest'.dropWhile (fun x => !is_separator x))
    else if c = '"' || c = '\'' then
      match rest'.dropWhile (fun x => x ≠ c) with
      | [] => some (.Unterminated, rest', [])
      | _ :: after => some (.Text, rest'.takeWhile (fun x => x ≠ c), after)
    else if c = '=' then some (.Equals, [c], rest')
    else if c = '!' then some (.Bang, [c], rest')
    else
      some (.Text, rest.takeWhile (fun x => !is_separator x),
        rest.dropWhile (fun x => !is_separator x))

theorem dropWhile_head_false {p : Char → Bool} :
    ∀ (l : List Char) c rest, l.dropWhile p = c :: rest → p c = false := by
  intro l
  induction l with
  | nil => intro c rest h; cases h
  | cons a l ih =>
    intro c rest h
    by_cases hp : p a
    · rw [List.dropWhile_cons_of_pos hp] at h
      exact ih c rest h
    · rw [List.dropWhile_cons_of_neg hp] at h
      cases h
      simpa using hp

theorem length_dropWhile_le (p : Char → Bool) (l : List Char) :
    (l.dropWhile p).length ≤ l.length :=
  (List.dropWhile_suffix p).sublist.length_le

theorem next_token_shrinks (input : List Char) :
    ∀ k tok rest, next_token input = some (k, tok, rest) →
      rest.length < input.length := by
  intro k tok rest h
  simp only [next_token] at h
  have htrim : (input.dropWhile fun c => isAsciiWhitespaceChar c || c = '\\').length ≤
      input.length := length_dropWhile_le _ _
  rcases hd : input.dropWhile fun c => isAsciiWhitespaceChar c || c = '\\' with _ | ⟨c, rest'⟩
  · rw [hd] at h
    cases h
  · rw [hd] at h htrim
    have hr' : rest'.length + 1 ≤ input.length := by
      simpa using htrim
    by_cases h1 : c = '-'
    · simp only [h1, if_pos, Option.some.injEq, Prod.mk.injEq] at h
      obtain ⟨-, -, rfl⟩ := h
      have := length_dropWhile_le (fun x => !is_separator x) rest'
      omega
    · by_cases h2 : c = '"' || c = '\''
      · simp only [h1, if_false, h2, if_pos, Bool.false_eq_true] at h
        rcases hq : rest'.dropWhile (fun x => x ≠ c) with _ | ⟨q, after⟩ <;> rw [hq] at h
        · simp only [Option.some.injEq, Prod.mk.injEq] at h
          obtain ⟨-, -, rfl⟩ := h
          simp only [List.length_nil]
          omega
        · simp only [Option.some.injEq, Prod.mk.injEq] at h
          obtain ⟨-, -, rfl⟩ := h
          have hq' : (q :: after).length ≤ rest'.length := by
            rw [← hq]
            exact length_dropWhile_le _ _
          simp only [List.length_cons] at hq'
          omega
      · by_cases h3 : c = '='
        · simp only [h1, h2, h3, if_pos, if_false, Bool.false_eq_true,
            Option.some.injEq, Prod.mk.injEq] at h
          obtain ⟨-, -, rfl⟩ := h
          omega
        · by_cases h4 : c = '!'
          · simp only [h1, h2, h3, h4, if_pos, if_false, Bool.false_eq_true,
              Option.some.injEq, Prod.mk.injEq] at h
            obtain ⟨-, -, rfl⟩ := h
            omega
          · simp only [h1, h2, h3, h4, if_false, Bool.false_eq_true,
              Option.some.injEq, Prod.mk.injEq] at h
            obtain ⟨-, -, rfl⟩ := h
            have hws : (isAsciiWhitespaceChar c || c = '\\') = false :=
              dropWhile_head_false input c rest' hd
            have h2' : c ≠ '"' ∧ c ≠ '\'' := by
              simpa [not_or] using h2
            have hwsa : isAsciiWhitespaceChar c = false :=
              (Bool.or_eq_false_iff.1 hws).1
            have hsep : is_separator c = false := by
              simp [is_separator, hwsa, h3, h4, h2'.1, h2'.2]
            have hdw : (c :: rest').dropWhile (fun x => !is_separator x) =
                rest'.dropWhile (fun x => !is_separator x) := by
              simp [List.dropWhile_cons, hsep]
            rw [hdw]
            have := length_dropWhile_le (fun x => !is_separator x) rest'
            omega

/-- Fuelled tokenizer loop; `next_token` consumes at least one character per
token, so `input.length + 1` units of fuel always suffice
(`tokenize_cons` below recovers the fuel-free unfolding). -/
def tokenizeGo (fuel : Nat) (input : List Char) :
    List (CommandTokenKind × List Char) :=
  match fuel with
  | 0 => []
  | fuel + 1 =>
    match next_token input with
    | none => []
    | some (k, tok, rest) => (k, tok) :: tokenizeGo fuel rest

/-- The token stream of `CommandTokenIter`: repeated `next_token` until
exhaustion. -/
def tokenize (input : List Char) : List (CommandTokenKind × List Char) :=
  tokenizeGo (input.length + 1) input


/-- `CommandParseError` from `lib/command.rs` (payloads kept as the token or
counter the source stores). -/
inductive CommandParseError where
  | InvalidCommandName (s : List Char)
  | CommandNotFound (s : List Char)
  | CommandDoesNotAcceptBang (s : List Char)
  | UnterminatedArgument (s : List Char)
  | InvalidArgument (s : List Char)
  | TooFewValues (s : List Char) (min : Nat)
  | TooManyValues (s : List Char) (max : Nat)
  | UnknownFlag (s : List Char)
  | InvalidFlagValue (s : List Char)
  deriving Repr, DecidableEq

/-- The parts of `BuiltinCommand` that `CommandManager::parse` consults:
names, whether `!` is accepted (`bang_usage.is_some()`), the declared arities
and the flag names. -/
structure BuiltinCommandSpec where
  names : List (List Char)
  accepts_bang : Bool
  required_values_len : Nat
  optional_values_len : Nat
  has_extra_values : Bool
  flags : List (List Char)
  deriving Repr, DecidableEq

/-- `CommandManager::find_command`: position of the first command whose name
list contains the name. -/
def find_command (tbl : List BuiltinCommandSpec) (name : List Char) : Option Nat :=
  tbl.findIdx? fun c => c.names.contains name

/-- The accumulating `CommandArgs`: the bang flag, bound values (required
then extra, in order) and the flag assignments `(declared index, value)`. -/
structure CommandArgs where
  bang : Bool
  required_values : List (List Char)
  other_values : List (List Char)
  flag_assignments : List (Nat × List Char)
  deriving Repr, DecidableEq

/-- `add_value` from `CommandManager::parse`: fill required slots first, then
the optional/extra slots; past the limit, fail with `TooManyValues` (the
limit reported is `max + min_values_len`, exactly as the source computes
it). -/
def add_value (cmd : BuiltinCommandSpec) (args : CommandArgs) (value : List Char) :
    Except CommandParseError CommandArgs :=
  let values_count := args.required_values.length + args.other_values.length
  if values_count < cmd.required_values_len then
    .ok { args with required_values := args.required_values ++ [value] }
  else
    let len := values_count - cmd.required_values_len
    let max := if cmd.has_extra_values then MAX_OTHER_VALUES_LEN
      else cmd.required_values_len + cmd.optional_values_len
    if len < max then
      .ok { args with other_values := args.other_values ++ [value] }
    else
      .error (.TooManyValues value (max + cmd.required_values_len))

/-- `add_flag` from `CommandManager::parse`: bind a declared flag or fail
with `UnknownFlag`. -/
def add_flag (cmd : BuiltinCommandSpec) (args : CommandArgs) (key value : List Char) :
    Except CommandParseError CommandArgs :=
  match cmd.flags.findIdx? (· == key) with
  | some i => .ok { args with flag_assignments := args.flag_assignments ++ [(i, value)] }
  | none => .error (.UnknownFlag key)

/-- The binding loop of `CommandManager::parse` over the token stream.  The
source peeks one token ahead after a bare flag; here the peeked token is
simply left in the stream.  The patterns are spelled out disjointly (one per
token-kind combination) but implement exactly the source's nested matches. -/
def bindLoop (cmd : BuiltinCommandSpec) (name : List Char) (args : CommandArgs) :
    List (CommandTokenKind × List Char) → Except CommandParseError CommandArgs
  | [] =>
    let values_count := args.required_values.length + args.other_values.length
    if values_count < cmd.required_values_len then
      let token := if values_count > 0 then args.required_values.getLastD [] else name
      .error (.TooFewValues token cmd.required_values_len)
    else .ok args
  | (.Text, s) :: rest =>
    match add_value cmd args s with
    | .ok args' => bindLoop cmd name args' rest
    | .error e => .error e
  | (.Flag, flag_token) :: (.Equals, _) :: (.Text, s) :: rest3 =>
    match add_flag cmd args flag_token s with
    | .ok args' => bindLoop cmd name args' rest3
    | .error e => .error e
  | (.Flag, _) :: (.Equals, _) :: (.Unterminated, s) :: _ =>
    .error (.UnterminatedArgument s)
  | (.Flag, _) :: (.Equals, _) :: (.Flag, s) :: _ => .error (.InvalidFlagValue s)
  | (.Flag, _) :: (.Equals, _) :: (.Equals, s) :: _ => .error (.InvalidFlagValue s)
  | (.Flag, _) :: (.Equals, _) :: (.Bang, s) :: _ => .error (.InvalidFlagValue s)
  | (.Flag, _) :: [(.Equals, equals_token)] =>
    .error (.InvalidFlagValue equals_token)
  | (.Flag, flag_token) :: [] =>
    match add_flag cmd args flag_token ['t', 'r', 'u', 'e'] with
    | .ok args' => bindLoop cmd name args' []
    | .error e => .error e
  | (.Flag, flag_token) :: (.Text, s2) :: rest2 =>
    match add_flag cmd args flag_token ['t', 'r', 'u', 'e'] with
    | .ok args' => bindLoop cmd name args' ((.Text, s2) :: rest2)
    | .error e => .error e
  | (.Flag, flag_token) :: (.Flag, s2) :: rest2 =>
    match add_flag cmd args flag_token ['t', 'r', 'u', 'e'] with
    | .ok args' => bindLoop cmd name args' ((.Flag, s2) :: rest2)
    | .error e => .error e
  | (.Flag, flag_token) :: (.Bang, s2) :: rest2 =>
    match add_flag cmd args flag_token ['t', 'r', 'u', 'e'] with
    | .ok args' => bindLoop cmd name args' ((.Bang, s2) :: rest2)
    | .error e => .error e
  | (.Flag, flag_token) :: (.Unterminated, s2) :: rest2 =>
    match add_flag cmd args flag_token ['t', 'r', 'u', 'e'] with
    | .ok args' => bindLoop cmd name args' ((.Unterminated, s2) :: rest2)
    | .error e => .error e
  | (.Equals, s) :: _ => .error (.InvalidArgument s)
  | (.Bang, s) :: _ => .error (.InvalidArgument s)
  | (.Unterminated, s) :: _ => .error (.UnterminatedArgument s)

/-- `CommandManager::parse`: the first token must be a `Text` naming a known
command; a `Bang` as the very next token sets the bang flag; a banged command
that does not accept `!` fails with `CommandDoesNotAcceptBang`; then the
binding loop runs over the remaining tokens. -/
def parse (tbl : List BuiltinCommandSpec) (text : List Char) :
    Except CommandParseError (Nat × CommandArgs) :=
  match tokenize text with
  | (.Text, name) :: toks =>
    let (bang, toks2) :=
      match toks with
      | (.Bang, _) :: rest => (true, rest)
      | _ => (false, toks)
    match find_command tbl name with
    | none => .error (.CommandNotFound name)
    | some i =>
      let cmd := tbl.getD i ⟨[], false, 0, 0, false, []⟩
      if bang && !cmd.accepts_bang then
        .error (.CommandDoesNotAcceptBang name)
      else
        (bindLoop cmd name ⟨bang, [], [], []⟩ toks2).map fun args => (i, args)
  | (_, s) :: _ => .error (.InvalidCommandName s)
  | [] => .error (.InvalidCommandName (text.dropWhile isAsciiWhitespaceChar))

/-- The claim's trigger for the bang flag: a `!` immediately after the
command-name token, with nothing (in particular no whitespace) in between. -/
def immediateBang (text : List Char) : Bool :=
  match next_token text with
  | some (.Text, _, rest) => rest.head? = some '!'
  | _ => false

/-- What the code actually keys on: the second token of the stream is a
`Bang` token (whitespace and line-continuation backslashes before it are
skipped by the tokenizer). -/
def secondTokenIsBang (text : List Char) : Bool :=
  match tokenize text with
  | (.Text, _) :: (.Bang, _) :: _ => true
  | _ => false

/-- The command table of the repo's own parser tests: one command named
`command-name` (alias `c`) accepting `!`, extra values and flags `switch`
and `option`. -/
def testCommands : List BuiltinCommandSpec :=
  [⟨[['c', 'o', 'm', 'm', 'a', 'n', 'd', '-', 'n', 'a', 'm', 'e'], ['c']],
    true, 0, 0, true,
    [['s', 'w', 'i', 't', 'c', 'h'], ['o', 'p', 't', 'i', 'o', 'n']]⟩]

/-- `testCommands` with bang rejected (`bang_usage: None`), to exercise
`CommandDoesNotAcceptBang`. -/
def testCommandsNoBang : List BuiltinCommandSpec :=
  [⟨[['c', 'o', 'm', 'm', 'a', 'n', 'd', '-', 'n', 'a', 'm', 'e'], ['c']],
    false, 0, 0, true,
    [['s', 'w', 'i', 't', 'c', 'h'], ['o', 'p', 't', 'i', 'o', 'n']]⟩]


/-! ## LSP `didChange` flush (`src/lsp/client.rs` lines 246-302 and 1669-1734) -/

/-- `BufferPosition` (byte-indexed, as in `src/buffer_position.rs`'s
interface). -/
structure BufferPosition where
  line_index : Nat
  column_byte_index : Nat
  deriving Repr, DecidableEq

/-- A buffer range between two positions. -/
structure BufferRangeP where
  from_ : BufferPosition
  to_ : BufferPosition
  deriving Repr, DecidableEq

/-- `TextDocumentSyncKind` from `src/lsp/client.rs`. -/
inductive TextDocumentSyncKind where
  | none
  | full
  | incremental
  deriving Repr, DecidableEq

/-- The `textDocumentSync` part of `ServerCapabilities` that
`send_pending_did_change` consults. -/
structure TextDocumentSyncCapability where
  open_close : Bool
  change : TextDocumentSyncKind
  save : TextDocumentSyncKind
  deriving Repr, DecidableEq

/-- `VersionedBufferEdit`: a buffer range plus the byte range of the edit's
text inside the versioned buffer's text arena. -/
structure VersionedBufferEdit where
  buffer_range : BufferRangeP
  text_range : Nat × Nat
  deriving Repr, DecidableEq

/-- `VersionedBuffer`: version counter, text arena and pending edit list. -/
structure VersionedBuffer where
  version : Nat
  texts : List Nat
  pending_edits : List VersionedBufferEdit
  deriving Repr, DecidableEq

/-- `VersionedBuffer::flush`: clear the arena and the pending edits and
increment the version. -/
def VersionedBuffer.flush (vb : VersionedBuffer) : VersionedBuffer :=
  ⟨vb.version + 1, [], []⟩

/-- The parts of an editor buffer that `send_pending_did_change` consults:
`capabilities.can_save`, `path()` and the content. -/
structure LspTrackedBuffer where
  can_save : Bool
  path : Option (List Nat)
  content : List Nat
  deriving Repr, DecidableEq

/-- One element of a `didChange` notification's `contentChanges` array: an
optional range (absent for a full-text change) and the change text. -/
structure ChangeEvent where
  range : Option BufferRangeP
  text : List Nat
  deriving Repr, DecidableEq

/-- A `textDocument/didChange` notification as built by
`send_pending_did_change`: the buffer it concerns, the version sent and the
`contentChanges` body. -/
structure DidChangeNotification where
  buffer_index : Nat
  version : Nat
  content_changes : List ChangeEvent
  deriving Repr, DecidableEq

/-- The `contentChanges` body built by `send_pending_did_change`.  Exactly as
in the source, the *match is on the `save` sync kind* (not `change`): `None`
yields no change events, `Full` the full buffer text, `Incremental` one event
per pending edit with its arena text slice. -/
def contentChangesFor (save : TextDocumentSyncKind) (content : List Nat)
    (vb : VersionedBuffer) : List ChangeEvent :=
  match save with
  | .none => []
  | .full => [⟨none, content⟩]
  | .incremental =>
    vb.pending_edits.map fun e =>
      ⟨some e.buffer_range,
        (vb.texts.drop e.text_range.1).take (e.text_range.2 - e.text_range.1)⟩

/-- The loop of `send_pending_did_change` over the versioned buffers
(`iter_pending_mut` yields those with pending edits): skip buffers that are
gone, not saveable or pathless; otherwise emit a notification carrying the
current version and flush. -/
def sendPendingDidChangeGo (caps : TextDocumentSyncCapability)
    (buffers : List (Option LspTrackedBuffer)) (i : Nat) :
    List VersionedBuffer → List DidChangeNotification × List VersionedBuffer
  | [] => ([], [])
  | vb :: rest =>
    let (msgs, rest') := sendPendingDidChangeGo caps buffers (i + 1) rest
    if vb.pending_edits.isEmpty then (msgs, vb :: rest')
    else
      match buffers.getD i none with
      | none => (msgs, vb :: rest')
      | some buf =>
        if !buf.can_save then (msgs, vb :: rest')
        else
          match buf.path with
          | none => (msgs, vb :: rest')
          | some _ =>
            (⟨i, vb.version, contentChangesFor caps.save buf.content vb⟩ :: msgs,
              vb.flush :: rest')

/-- `helper::send_pending_did_change`: return immediately when the negotiated
`textDocumentSync.change` kind is `None`; otherwise walk the versioned
buffers. -/
def send_pending_did_change (caps : TextDocumentSyncCapability)
    (buffers : List (Option LspTrackedBuffer)) (vbs : List VersionedBuffer) :
    List DidChangeNotification × List VersionedBuffer :=
  match caps.change with
  | .none => ([], vbs)
  | _ => sendPendingDidChangeGo caps buffers 0 vbs


/-! ## BufferContent (`src/buffer.rs` lines 278-495) and undo replay

Lines are modelled by their byte text (`List Nat`); the cached per-line
character count is the subject of claim C10 above and plays no role in
content equality. -/

/-- Indexing `self.lines[i]` (out-of-range yields `[]`; the clamping below
keeps all indices in range exactly as in the source). -/
def lineAtD (c : List (List Nat)) (i : Nat) : List Nat :=
  c.getD i []

/-- `BufferContent::clamp_position`. -/
def clamp_position (c : List (List Nat)) (p : BufferPosition) : BufferPosition :=
  let line_index := min p.line_index (c.length - 1)
  ⟨line_index, min p.column_byte_index (lineAtD c line_index).length⟩

/-- Split a byte string at every `\n` (byte 10); always returns one more
segment than there are newline bytes. -/
def splitNl : List Nat → List (List Nat)
  | [] => [[]]
  | b :: rest =>
    if b = 10 then [] :: splitNl rest
    else
      match splitNl rest with
      | [] => [[b]]
      | seg :: segs => (b :: seg) :: segs

/-- Strip one trailing `\r` (byte 13), as Rust's `str::lines` does from every
`\n`-terminated line. -/
def stripCr (s : List Nat) : List Nat :=
  if s.getLast? = some 13 then s.dropLast else s

/-- Rust's `str::lines()` at the byte level: split at `\n`, drop the final
empty segment produced by a trailing `\n`, and strip a `\r` from the end of
every `\n`-terminated segment. -/
def rustLines (t : List Nat) : List (List Nat) :=
  match t with
  | [] => []
  | _ =>
    let segs := splitNl t
    if t.getLast? = some 10 then segs.dropLast.map stripCr
    else segs.dropLast.map stripCr ++ [segs.getLastD []]

/-- `BufferContent::insert_text`.  Single-line text is spliced into the line;
multi-line text splits the line at the insertion column, appends the first
segment to the head, inserts the remaining segments as new lines and either
re-attaches the split-off tail as its own line (text ending in `\n`) or
appends it to the last inserted line.  Returns the new content and the range
of the inserted text. -/
def insert_text (c : List (List Nat)) (pos : BufferPosition) (t : List Nat) :
    List (List Nat) × BufferRangeP :=
  let p := clamp_position c pos
  if 10 ∈ t then
    let line := lineAtD c p.line_index
    let head := line.take p.column_byte_index
    let split_line := line.drop p.column_byte_index
    match rustLines t with
    | [] => (c, ⟨p, p⟩)
    | s0 :: rest =>
      let c1 := c.set p.line_index (head ++ s0)
      if t.getLast? = some 10 then
        (c1.take (p.line_index + 1) ++ rest ++ [split_line] ++
            c1.drop (p.line_index + 1),
          ⟨p, ⟨p.line_index + rest.length + 1, 0⟩⟩)
      else
        match rest with
        | [] =>
          (c.set p.line_index (head ++ s0 ++ split_line),
            ⟨p, ⟨p.line_index, (head ++ s0).length⟩⟩)
        | _ =>
          (c1.take (p.line_index + 1) ++
              (rest.dropLast ++ [rest.getLastD [] ++ split_line]) ++
              c1.drop (p.line_index + 1),
            ⟨p, ⟨p.line_index + rest.length, (rest.getLastD []).length⟩⟩)
  else
    let line := lineAtD c p.line_index
    let new_line := line.take p.column_byte_index ++ t ++
      line.drop p.column_byte_index
    let len_diff := new_line.length - line.length
    (c.set p.line_index new_line,
      ⟨p, ⟨p.line_index, p.column_byte_index + len_diff⟩⟩)

/-- `BufferContent::delete_range`.  Single-line ranges splice the line;
multi-line ranges delete the tail of the first line, drain the interior
lines, remove the last line and splice its head, accumulating the deleted
text with `\n` separators.  Returns the new content and the deleted text. -/
def delete_range (c : List (List Nat)) (r : BufferRangeP) :
    List (List Nat) × List Nat :=
  let f := clamp_position c r.from_
  let t := clamp_position c r.to_
  if f.line_index = t.line_index then
    let line := lineAtD c f.line_index
    let deleted := (line.drop f.column_byte_index).take
      (t.column_byte_index - f.column_byte_index)
    (c.set f.line_index
        (line.take f.column_byte_index ++ line.drop t.column_byte_index),
      deleted)
  else
    let first := lineAtD c f.line_index
    let d1 := first.drop f.column_byte_index
    let c1 := c.set f.line_index (first.take f.column_byte_index)
    let interior := (c1.drop (f.line_index + 1)).take
      (t.line_index - (f.line_index + 1))
    let c2 := c1.take (f.line_index + 1) ++ c1.drop t.line_index
    let d2 := interior.foldl (fun acc l => acc ++ 10 :: l) d1
    if f.line_index + 1 < c2.length then
      let to_line := lineAtD c2 (f.line_index + 1)
      ((c2.eraseIdx (f.line_index + 1)).set f.line_index
          (lineAtD c2 f.line_index ++ to_line.drop t.column_byte_index),
        d2 ++ 10 :: to_line.take t.column_byte_index)
    else (c2, d2)


/-- Join line fragments with `\n` separators (the shape of deleted text that
`delete_range` accumulates). -/
def joinNl : List (List Nat) → List Nat
  | [] => []
  | [l] => l
  | l :: ls => l ++ 10 :: joinNl ls

/-- `EditKind` from `src/buffer.rs` (via `crate::history`). -/
inductive EditKind where
  | Insert
  | Delete
  deriving Repr, DecidableEq

/-- An edit record: kind, range, text and originating cursor index. -/
structure Edit where
  kind : EditKind
  range : BufferRangeP
  text : List Nat
  cursor_index : Nat
  deriving Repr, DecidableEq

/-- The content-level operations of claim C3: `Buffer::insert_text` and
`Buffer::delete_range`. -/
inductive BufOp where
  | ins (pos : BufferPosition) (t : List Nat) (cursor_index : Nat)
  | del (r : BufferRangeP) (cursor_index : Nat)
  deriving Repr, DecidableEq

/-- One `Buffer::insert_text` / `Buffer::delete_range` step at the content
level: empty inserts and empty ranges change nothing and record no edit;
otherwise the content changes and an edit is recorded (`cursor_index` is
clamped to `u8::MAX` as in the source). -/
def stepBuf (c : List (List Nat)) : BufOp → List (List Nat) × Option Edit
  | .ins pos t cursor_index =>
    if t.isEmpty then (c, none)
    else
      let (c', range) := insert_text c pos t
      (c', some ⟨.Insert, range, t, min cursor_index 255⟩)
  | .del r cursor_index =>
    if r.from_ = r.to_ then (c, none)
    else
      let (c', deleted) := delete_range c r
      (c', some ⟨.Delete, r, deleted, min cursor_index 255⟩)

/-- Apply a sequence of edits, collecting the recorded history in order. -/
def runBuf (c : List (List Nat)) : List BufOp → List (List Nat) × List Edit
  | [] => (c, [])
  | op :: ops =>
    let (c1, rec?) := stepBuf c op
    let (cF, recs) := runBuf c1 ops
    (cF, rec?.toList ++ recs)

/-- Undoing one recorded edit, as `Buffer::history_edits` applies the
inverted edit that history yields: an `Insert` is undone by deleting its
range through `BufferContent::delete_range`, a `Delete` by re-inserting its
text at the range start through `BufferContent::insert_text`. -/
def undoEdit (c : List (List Nat)) (e : Edit) : List (List Nat) :=
  match e.kind with
  | .Insert => (delete_range c e.range).1
  | .Delete => (insert_text c e.range.from_ e.text).1

/-- Modelled from the spec: the undo history (`src/history.rs` is not among
the sources).  §3: edits are grouped, undo replays the latest closed group in
reverse with inverted kinds; undoing until no earlier group remains therefore
replays the entire recorded edit list newest-first, each through
`undoEdit`. -/
def undoAll (c : List (List Nat)) : List Edit → List (List Nat)
  | [] => c
  | e :: es => undoEdit (undoAll c es) e

/-- Well-formed content for claim C3: at least one line, and no line contains
a newline byte; carriage returns (byte 13) are additionally excluded — the
amended claim needs this because Rust's `lines()` strips `\r` before `\n`
when an undo re-inserts deleted text. -/
def wfContent (c : List (List Nat)) : Bool :=
  !c.isEmpty && c.all fun line => line.all fun b => b ≠ 10 && b ≠ 13

/-- A position is in bounds when its line exists and its column does not
exceed the line's byte length. -/
def posInBounds (c : List (List Nat)) (p : BufferPosition) : Bool :=
  p.line_index < c.length &&
    p.column_byte_index ≤ (lineAtD c p.line_index).length

/-- Lexicographic order on positions (ranges built by
`BufferRange::between` satisfy it). -/
def posLe (a b : BufferPosition) : Bool :=
  a.line_index < b.line_index ||
    (a.line_index = b.line_index && a.column_byte_index ≤ b.column_byte_index)

/-- Validity of a single operation against a content: inserted text carries
no carriage returns and all positions/ranges are in bounds and ordered. -/
def validOp (c : List (List Nat)) : BufOp → Bool
  | .ins pos t _ => posInBounds c pos && t.all fun b => b ≠ 13
  | .del r _ => posInBounds c r.from_ && posInBounds c r.to_ &&
      posLe r.from_ r.to_

/-- Validity of an operation sequence against the evolving content. -/
def validBufOps (c : List (List Nat)) : List BufOp → Bool
  | [] => true
  | op :: ops => validOp c op && validBufOps (stepBuf c op).1 ops

/-! ## The `open` command's argument loop (`pepper/src/command/builtins.rs` lines 134-151) -/

/-- Modelled from the spec: buffer properties (`pepper/src/buffer.rs` is not
among the sources).  §3 lists history-enabled, saving-enabled, is-file and
word-database-enabled; only these flags are touched by the `open` loop. -/
structure BufferProperties where
  history_enabled : Bool
  saving_enabled : Bool
  word_database_enabled : Bool
  is_file : Bool
  deriving Repr, DecidableEq

/-- Modelled from the spec: `BufferProperties::text()`, the default for
file-backed text buffers — everything enabled. -/
def BufferProperties.text : BufferProperties :=
  ⟨true, true, true, true⟩

/-- Modelled from the spec: `BufferProperties::scratch()` — a scratch buffer
is not file-backed and has saving, history and word-database disabled. -/
def BufferProperties.scratch : BufferProperties :=
  ⟨false, false, false, false⟩

/-- The command errors reached by the embedded commands. -/
inductive BufferReadError where
  | FileNotFound
  | InvalidData
  | Io
  deriving Repr, DecidableEq

/-- The subset of `CommandError` the embedded commands can produce. -/
inductive CommandError where
  | NoSuchBufferProperty
  | TooFewValues
  | BufferReadError (e : BufferReadError)
  deriving Repr, DecidableEq

/-- Except values over the error types above are compared in witnesses. -/
instance {e a : Type} [DecidableEq e] [DecidableEq a] : DecidableEq (Except e a) := fun x y =>
  match x, y with
  | .ok u, .ok v =>
    if h : u = v then isTrue (by rw [h]) else isFalse (by intro hc; cases hc; exact h rfl)
  | .error u, .error v =>
    if h : u = v then isTrue (by rw [h]) else isFalse (by intro hc; cases hc; exact h rfl)
  | .ok _, .error _ => isFalse (by intro hc; cases hc)
  | .error _, .ok _ => isFalse (by intro hc; cases hc)

/-- One arm of the `match` inside the `open` command's argument loop: interpret
a token as a buffer property applied to `props`, or `none` for the
`NoSuchBufferProperty` arm. -/
def applyBufferProperty (tok : String) (props : BufferProperties) :
    Option BufferProperties :=
  match tok with
  | "text" => some BufferProperties.text
  | "scratch" => some BufferProperties.scratch
  | "history-enabled" => some { props with history_enabled := true }
  | "history-disabled" => some { props with history_enabled := false }
  | "saving-enabled" => some { props with saving_enabled := true }
  | "saving-disabled" => some { props with saving_enabled := false }
  | "word-database-enabled" => some { props with word_database_enabled := true }
  | "word-database-disabled" => some { props with word_database_enabled := false }
  | _ => none

/-- Whether a token names a buffer property. -/
def isBufferPropertyToken (tok : String) : Bool :=
  tok ∈ ["text", "scratch", "history-enabled", "history-disabled",
    "saving-enabled", "saving-disabled", "word-database-enabled",
    "word-database-disabled"]

/-- The `while let Some(arg) = io.args.try_next()` loop of the `open` command:
each iteration matches the token held in `path` (the token *before* `arg`)
against the property names and then replaces `path` with `arg`.  The last
positional token therefore ends up as the path. -/
def openParseGo (path : String) (props : BufferProperties) :
    List String → Except CommandError (String × BufferProperties)
  | [] => .ok (path, props)
  | arg :: rest =>
    match applyBufferProperty path props with
    | some props' => openParseGo arg props' rest
    | none => .error .NoSuchBufferProperty

/-- The `open` command's positional-argument parsing: `io.args.next()?`
followed by the property loop. -/
def openParseArgs (args : List String) :
    Except CommandError (String × BufferProperties) :=
  match args with
  | [] => .error .TooFewValues
  | path :: rest => openParseGo path BufferProperties.text rest

/-- The claim's reading of `open PATH [PROPERTY…]`: the FIRST positional token
is the path and every subsequent token is parsed as a property.  This follows
the spec's words; it is compared against `openParseArgs`, which embeds the
source. -/
def openParseArgsClaim (args : List String) :
    Except CommandError (String × BufferProperties) :=
  match args with
  | [] => .error .TooFewValues
  | path :: rest =>
    rest.foldlM (fun props tok =>
        match applyBufferProperty tok props with
        | some props' => Except.ok props'
        | none => Except.error CommandError.NoSuchBufferProperty)
      BufferProperties.text
    |>.map fun props => (path, props)

/-- Fold a list of property tokens over the default properties (used to state
what `openParseArgs` produces when all leading tokens are properties). -/
def foldBufferProperties (toks : List String) : BufferProperties :=
  toks.foldl (fun props tok => (applyBufferProperty tok props).getD props)
    BufferProperties.text

/-! ## The `reopen-all` command (`pepper/src/command/builtins.rs` lines 238-261) -/

/-- The loop of the `reopen-all` command over each buffer's
`read_from_file` outcome, carrying `count` and `all_files_found`, followed by
the final `count == 0 && all_files_found` check.  `FileNotFound` sets
`all_files_found` to `true` (exactly as the source does — the variable is
already initialized `true`); any other error aborts the batch. -/
def reopenAllGo (count : Nat) (all_files_found : Bool) :
    List (Except BufferReadError Unit) → Except CommandError Nat
  | [] =>
    if count = 0 && all_files_found then
      .error (.BufferReadError .FileNotFound)
    else .ok count
  | r :: rest =>
    match r with
    | .ok _ => reopenAllGo (count + 1) all_files_found rest
    | .error .FileNotFound => reopenAllGo count true rest
    | .error e => .error (.BufferReadError e)

/-- `reopen-all`, abstracted over the list of per-buffer read outcomes. -/
def reopenAll (results : List (Except BufferReadError Unit)) :
    Except CommandError Nat :=
  reopenAllGo 0 true results

/-- The number of successful re-reads in a batch. -/
def reopenOkCount (results : List (Except BufferReadError Unit)) : Nat :=
  results.countP fun r => r matches .ok _


/-! ## `ResidualStrBytes` (`pepper/src/editor_utils.rs` lines 176-235) -/

/-- A UTF-8 continuation byte (`0x80..=0xBF`). -/
def isCont (b : Nat) : Bool :=
  128 ≤ b && b < 192

/-- The byte string is the UTF-8 encoding of exactly one Unicode scalar
value. -/
def isCharEnc : List Nat → Bool
  | [b] => b ≤ 127
  | [b, c1] => 194 ≤ b && b ≤ 223 && isCont c1
  | [b, c1, c2] =>
    (224 ≤ b && b ≤ 239) &&
      (if b = 224 then 160 ≤ c1 && c1 ≤ 191
       else if b = 237 then 128 ≤ c1 && c1 ≤ 159
       else isCont c1) && isCont c2
  | [b, c1, c2, c3] =>
    (240 ≤ b && b ≤ 244) &&
      (if b = 240 then 144 ≤ c1 && c1 ≤ 191
       else if b = 244 then 128 ≤ c1 && c1 ≤ 143
       else isCont c1) && isCont c2 && isCont c3
  | _ => false

/-- The number of bytes a UTF-8 sequence led by byte `b` should have,
as Rust's `from_utf8` reads it off the leading byte. -/
def charLenOf (b : Nat) : Nat :=
  if b ≤ 127 then 1 else if b ≤ 223 then 2 else if b ≤ 239 then 3 else 4

/-- Fuel-driven worker for `validUtf8`: repeatedly split off `charLenOf`
bytes and check they encode one scalar value.  The fuel (`s.length` at the
top level) only serves structural recursion; each step consumes at least one
byte. -/
def validUtf8Go : Nat → List Nat → Bool
  | _, [] => true
  | 0, _ :: _ => false
  | fuel + 1, b :: rest =>
    isCharEnc ((b :: rest).take (charLenOf b)) &&
      validUtf8Go fuel ((b :: rest).drop (charLenOf b))

/-- Rust's `str::from_utf8` validity check: the byte string is a
concatenation of single-scalar-value UTF-8 encodings (no overlong forms, no
surrogates, max U+10FFFF — enforced by `isCharEnc`). -/
def validUtf8 (s : List Nat) : Bool :=
  validUtf8Go s.length s

/-- `str::from_utf8(..).unwrap_or("")` at the byte level. -/
def strOrEmpty (s : List Nat) : List Nat :=
  if validUtf8 s then s else []

/-- The first loop of `ResidualStrBytes::receive_bytes`: move leading
continuation bytes of the chunk into the residue buffer; stop at the first
char boundary, at the end of the chunk, or — discarding the residue without
consuming the byte — when the 4-byte buffer is already full.  Returns the
residue contents (`before`, the bytes `buf[..self.len]`) and the unconsumed
chunk tail. -/
def phase1 : List Nat → List Nat → List Nat × List Nat
  | res, [] => (res, [])
  | res, b :: rest =>
    if is_char_boundary b then (res, b :: rest)
    else if res.length = 4 then ([], b :: rest)
    else phase1 (res ++ [b]) rest

/-- The second loop of `receive_bytes`: starting from `n = bytes.length`,
repeatedly decrement and stop at the first char-boundary byte (scanning from
the end), or at 0.  The result is the split point for `after`/`rest`. -/
def phase2_go (bytes : List Nat) : Nat → Nat
  | 0 => 0
  | n + 1 => if is_char_boundary (bytes.getD n 0) then n else phase2_go bytes n

/-- `ResidualStrBytes::receive_bytes`, returning the new residue state and
the two returned string slices (`before`, `after`) as byte lists (empty when
`from_utf8` fails, as `unwrap_or("")` does). -/
def receive_bytes (res bytes : List Nat) : List Nat × List Nat × List Nat :=
  let (res1, bytes1) := phase1 res bytes
  let k := phase2_go bytes1 bytes1.length
  let after := bytes1.take k
  let rest := bytes1.drop k
  if 4 < rest.length then ([], [], [])
  else (rest, strOrEmpty res1, strOrEmpty after)

/-- Feed chunks through a `ResidualStrBytes` in order, concatenating the two
slices returned by each call, and finish with one call on an empty chunk
(whose slices are also appended). -/
def feedGo (res : List Nat) : List (List Nat) → List Nat
  | [] =>
    let (_, before, after) := receive_bytes res []
    before ++ after
  | ch :: rest =>
    let (res1, before, after) := receive_bytes res ch
    before ++ after ++ feedGo res1 rest

/-- Feeding a chunk list from the default (empty) state. -/
def feedAll (chunks : List (List Nat)) : List Nat :=
  feedGo [] chunks

/-- Concatenation of a list of byte strings. -/
def joinAll (ls : List (List Nat)) : List Nat :=
  ls.foldr (fun l acc => l ++ acc) []

/-- The chunkings of a character stream in which every character's encoding
spans at most two consecutive chunks.  `ChunksFrom pend cs chunks` means:
the next chunk must begin with the byte suffix `pend` of a character split
at the previous chunk boundary, `cs` are the character encodings still to be
placed (including the already-started one's full encoding split as
`h ++ t = c`), and `chunks` is an admissible chunk list.  A chunk is `pend`
followed by whole characters, optionally ending in a nonempty proper prefix
`h` of the next character. -/
inductive ChunksFrom : List Nat → List (List Nat) → List (List Nat) → Prop
  | nil : ChunksFrom [] [] []
  | bound (pend : List Nat) (ws cs : List (List Nat))
      (chunks : List (List Nat)) :
      ChunksFrom [] cs chunks →
      ChunksFrom pend (ws ++ cs) ((pend ++ joinAll ws) :: chunks)
  | split (pend : List Nat) (ws cs : List (List Nat)) (h t : List Nat)
      (chunks : List (List Nat)) :
      h ≠ [] → t ≠ [] →
      ChunksFrom t cs chunks →
      ChunksFrom pend (ws ++ (h ++ t) :: cs)
        ((pend ++ joinAll ws ++ h) :: chunks)

/-- The machine-state invariant tying the residue to the pending split
suffix: with nothing pending the residue is empty or one whole character
(held back by the backward scan); with `pend` pending the residue is the
nonempty complement, `residue ++ pend` being one character's encoding. -/
def StateOK (res pend : List Nat) : Prop :=
  (pend = [] ∧ (res = [] ∨ isCharEnc res = true)) ∨
    (pend ≠ [] ∧ res ≠ [] ∧ isCharEnc (res ++ pend) = true)


/-! ## `Buffer` undo/redo and the word database (`src/buffer.rs` lines 663-884) -/

/-- Modelled from the spec: an identifier byte (`word_database.rs` is not
among the sources) — ASCII alphanumeric or underscore. -/
def isIdentByte (b : Nat) : Bool :=
  (48 ≤ b && b ≤ 57) || (65 ≤ b && b ≤ 90) || (97 ≤ b && b ≤ 122) || b = 95

/-- Modelled from the spec: the identifier words of a line — its maximal
runs of identifier bytes (`WordIter::of_kind(WordKind::Identifier)`). -/
def identWords : List Nat → List (List Nat)
  | [] => []
  | b :: rest =>
    let ws := identWords rest
    if isIdentByte b then
      match rest, ws with
      | r0 :: _, w :: ws2 =>
        if isIdentByte r0 then (b :: w) :: ws2 else [b] :: ws
      | _, _ => [b] :: ws
    else ws

/-- Modelled from the spec: the word database as a bag of words
(`WordDatabase::add_word` / `remove_word` adjust reference counts;
`word_database.rs` is not among the sources). -/
def add_word (db : List (List Nat)) (w : List Nat) : List (List Nat) :=
  w :: db

/-- Remove one occurrence of a word from the bag. -/
def remove_word (db : List (List Nat)) (w : List Nat) : List (List Nat) :=
  db.erase w

/-- The identifier words of the lines `from_line ..= to_line`, as both
`Buffer::insert_text` and `Buffer::delete_range` iterate them
(`lines().skip(from).take(to - from + 1)`). -/
def wordsOfLines (c : List (List Nat)) (from_line to_line : Nat) :
    List (List Nat) :=
  ((c.drop from_line).take (to_line - from_line + 1)).foldr
    (fun l acc => identWords l ++ acc) []

/-- The highlight cache, modelled by its update log: `HighlightedBuffer`
receives exactly `on_insert range` / `on_delete range` notifications. -/
inductive HighlightEvent where
  | ins (r : BufferRangeP)
  | del (r : BufferRangeP)
  deriving Repr, DecidableEq

/-- Modelled from the spec: the undo history (`src/history.rs` is not among
the sources).  §3: edits accumulate in a current group; committing closes
the group onto the undo stack; undo moves the latest group to the redo
stack and yields its edits inverted and reversed; redo moves a group back,
yielding its edits as recorded. -/
structure HistoryM where
  past : List (List Edit)
  current : List Edit
  future : List (List Edit)
  deriving Repr, DecidableEq

/-- Recording a new edit truncates the redo stack. -/
def HistoryM.add_edit (h : HistoryM) (e : Edit) : HistoryM :=
  { h with current := h.current ++ [e], future := [] }

/-- `History::commit_edits`: close the current group if nonempty. -/
def HistoryM.commit_edits (h : HistoryM) : HistoryM :=
  if h.current.isEmpty then h
  else { past := h.current :: h.past, current := [], future := h.future }

/-- Invert an edit's kind (the form in which `undo_edits` yields it, so
that replaying it forward undoes it). -/
def invertEdit (e : Edit) : Edit :=
  { e with kind := match e.kind with
      | .Insert => .Delete
      | .Delete => .Insert }

/-- `History::undo_edits`: yield the latest group (the uncommitted edits if
any, else the top committed group) reversed and inverted, moving it to the
redo stack. -/
def HistoryM.undo_edits (h : HistoryM) : List Edit × HistoryM :=
  if h.current.isEmpty then
    match h.past with
    | [] => ([], h)
    | g :: rest =>
      ((g.reverse).map invertEdit, ⟨rest, [], g :: h.future⟩)
  else
    ((h.current.reverse).map invertEdit,
      ⟨h.past, [], h.current :: h.future⟩)

/-- `History::redo_edits`: replay the most recently undone group. -/
def HistoryM.redo_edits (h : HistoryM) : List Edit × HistoryM :=
  match h.future with
  | [] => ([], h)
  | g :: rest => (g, ⟨g :: h.past, h.current, rest⟩)

/-- `Buffer` (`src/buffer.rs` lines 663-671), restricted to the fields the
listed operations touch. -/
structure BufferM where
  content : List (List Nat)
  highlight_log : List HighlightEvent
  history : HistoryM
  word_database : List (List Nat)
  search_ranges : List BufferRangeP
  needs_save : Bool
  deriving Repr, DecidableEq

/-- `Buffer::insert_text` (lines 743-787): clears search ranges, returns
early on empty text, removes the insertion line's words, splices the text,
re-adds the words of every line the inserted range covers, notifies the
highlighter and records the edit. -/
def BufferM.insert_text (b : BufferM) (pos : BufferPosition) (t : List Nat)
    (cursor_index : Nat) : BufferM × BufferRangeP :=
  if t.isEmpty then ({ b with search_ranges := [] }, ⟨pos, pos⟩)
  else
    let db1 := (identWords (lineAtD b.content pos.line_index)).foldl
      remove_word b.word_database
    let (c2, range) := Pepper.insert_text b.content pos t
    let db2 := (wordsOfLines c2 range.from_.line_index
      range.to_.line_index).foldl add_word db1
    ({ content := c2,
       highlight_log := .ins range :: b.highlight_log,
       history := b.history.add_edit ⟨.Insert, range, t, min cursor_index 255⟩,
       word_database := db2,
       search_ranges := [],
       needs_save := true }, range)

/-- `Buffer::delete_range` (lines 789-831): clears search ranges, returns
early on an empty range, removes the words of every line the range covers,
deletes, re-adds the merged line's words, notifies the highlighter and
records the edit with the deleted text. -/
def BufferM.delete_range (b : BufferM) (r : BufferRangeP)
    (cursor_index : Nat) : BufferM :=
  if r.from_ = r.to_ then { b with search_ranges := [] }
  else
    let db1 := (wordsOfLines b.content r.from_.line_index
      r.to_.line_index).foldl remove_word b.word_database
    let (c2, deleted) := Pepper.delete_range b.content r
    let db2 := (identWords (lineAtD c2 r.from_.line_index)).foldl
      add_word db1
    { content := c2,
      highlight_log := .del r :: b.highlight_log,
      history := b.history.add_edit ⟨.Delete, r, deleted, min cursor_index 255⟩,
      word_database := db2,
      search_ranges := [],
      needs_save := true }

/-- One replayed edit inside `Buffer::history_edits` (lines 869-881): an
`Insert` goes through `BufferContent::insert_text` (highlight notified with
the *returned* range), a `Delete` through `BufferContent::delete_range`
(highlight notified with the edit's range). -/
def applyHistoryEdit (st : List (List Nat) × List HighlightEvent) (e : Edit) :
    List (List Nat) × List HighlightEvent :=
  match e.kind with
  | .Insert =>
    let (c2, r2) := insert_text st.1 e.range.from_ e.text
    (c2, .ins r2 :: st.2)
  | .Delete =>
    ((delete_range st.1 e.range).1, .del e.range :: st.2)

/-- `Buffer::history_edits` (lines 853-884): clear search ranges, mark
dirty, obtain the edits from the history selector and replay them against
content and highlight cache only. -/
def BufferM.history_edits (b : BufferM)
    (selector : HistoryM → List Edit × HistoryM) : BufferM :=
  let (edits, h2) := selector b.history
  let (c2, hl2) := edits.foldl applyHistoryEdit (b.content, b.highlight_log)
  { content := c2,
    highlight_log := hl2,
    history := h2,
    word_database := b.word_database,
    search_ranges := [],
    needs_save := true }

/-- `Buffer::undo` (lines 837-843). -/
def BufferM.undo (b : BufferM) : BufferM :=
  b.history_edits HistoryM.undo_edits

/-- `Buffer::redo` (lines 845-851). -/
def BufferM.redo (b : BufferM) : BufferM :=
  b.history_edits HistoryM.redo_edits

end Pepper

/-! ## Theorems -/

namespace Pepper

theorem charsCount_append (s t : List Nat) :
    charsCount (s ++ t) = charsCount s + charsCount t := by
  simp [charsCount, List.countP_append]

theorem take_append_drop_mid (l : List Nat) (a b : Nat) (hab : a ≤ b) :
    charsCount l =
      charsCount (l.take a) + charsCount ((l.drop a).take (b - a)) +
        charsCount (l.drop b) := by
  have h1 : l = l.take a ++ l.drop a := (List.take_append_drop a l).symm
  have h2 : l.drop a = (l.drop a).take (b - a) ++ (l.drop a).drop (b - a) :=
    (List.take_append_drop (b - a) (l.drop a)).symm
  have h3 : (l.drop a).drop (b - a) = l.drop b := by
    rw [List.drop_drop]
    congr 1
    omega
  calc charsCount l = charsCount (l.take a ++ l.drop a) := by rw [← h1]
    _ = charsCount (l.take a) + charsCount (l.drop a) := charsCount_append _ _
    _ = charsCount (l.take a) +
          charsCount ((l.drop a).take (b - a) ++ (l.drop a).drop (b - a)) := by rw [← h2]
    _ = charsCount (l.take a) +
          (charsCount ((l.drop a).take (b - a)) + charsCount ((l.drop a).drop (b - a))) := by
        rw [charsCount_append]
    _ = _ := by rw [h3]; ring

theorem lineCountOk_push_text {l : BufferLine} (h : lineCountOk l) (t : List Nat) :
    lineCountOk (l.push_text t) := by
  simp only [lineCountOk, BufferLine.push_text, charsCount_append,
    decide_eq_true_eq] at *
  omega

theorem lineCountOk_insert_text {l : BufferLine} (h : lineCountOk l)
    (index : Nat) (t : List Nat) : lineCountOk (l.insert_text index t) := by
  simp only [lineCountOk, BufferLine.insert_text, charsCount_append,
    decide_eq_true_eq] at *
  have hsplit : charsCount l.text = charsCount (l.text.take index) + charsCount (l.text.drop index) := by
    rw [← charsCount_append, List.take_append_drop]
  omega

theorem lineCountOk_delete_range {l : BufferLine} (h : lineCountOk l)
    {a b : Nat} (hab : a ≤ b) : lineCountOk (l.delete_range a b) := by
  simp only [lineCountOk, BufferLine.delete_range, charsCount_append,
    decide_eq_true_eq] at *
  have := take_append_drop_mid l.text a b hab
  omega

/-- The strengthened invariant for claim C10: the pool is empty (none of the
listed operations ever disposes a line) and every live line's cached count is
correct. -/
def lineStateOk (s : LineState) : Prop :=
  s.pool = ⟨[]⟩ ∧ ∀ l ∈ s.lines, lineCountOk l

theorem lineCountOk_split_off {l : BufferLine} (h : lineCountOk l) (index : Nat) :
    lineCountOk (l.split_off ⟨[]⟩ index).1 ∧ lineCountOk (l.split_off ⟨[]⟩ index).2.2 := by
  simp only [lineCountOk, BufferLine.split_off, BufferLinePool.rent,
    BufferLine.push_text, List.nil_append, decide_eq_true_eq] at *
  have hsplit : charsCount l.text =
      charsCount (l.text.take index) + charsCount (l.text.drop index) := by
    rw [← charsCount_append, List.take_append_drop]
  omega

theorem stepLine_preserves_ok {s : LineState} (hs : lineStateOk s) {op : LineOp}
    (hop : validLineOps [op] = true) : lineStateOk (stepLine s op) := by
  obtain ⟨hpool, hlines⟩ := hs
  cases op with
  | rent =>
    refine ⟨?_, ?_⟩ <;> simp only [stepLine, hpool, BufferLinePool.rent]
    intro l hl
    rcases List.mem_append.1 hl with h | h
    · exact hlines l h
    · simp only [List.mem_singleton] at h
      subst h
      rfl
  | push_text i t =>
    simp only [stepLine]
    split
    · refine ⟨hpool, fun l hl => ?_⟩
      rcases List.mem_or_eq_of_mem_set hl with h | h
      · exact hlines l h
      · subst h
        exact lineCountOk_push_text (hlines _ (List.get_mem _ _ _)) t
    · exact ⟨hpool, hlines⟩
  | insert_text i index t =>
    simp only [stepLine]
    split
    · refine ⟨hpool, fun l hl => ?_⟩
      rcases List.mem_or_eq_of_mem_set hl with h | h
      · exact hlines l h
      · subst h
        exact lineCountOk_insert_text (hlines _ (List.get_mem _ _ _)) index t
    · exact ⟨hpool, hlines⟩
  | delete_range i a b =>
    have hab : a ≤ b := by
      simpa [validLineOps] using hop
    simp only [stepLine]
    split
    · refine ⟨hpool, fun l hl => ?_⟩
      rcases List.mem_or_eq_of_mem_set hl with h | h
      · exact hlines l h
      · subst h
        exact lineCountOk_delete_range (hlines _ (List.get_mem _ _ _)) hab
    · exact ⟨hpool, hlines⟩
  | split_off i index =>
    simp only [stepLine]
    split
    · rename_i hi
      have hok := lineCountOk_split_off (hlines _ (List.get_mem s.lines i hi)) index
      rw [hpool]
      refine ⟨?_, fun l hl => ?_⟩
      · simp [BufferLine.split_off, BufferLinePool.rent]
      · rcases List.mem_append.1 hl with h | h
        · rcases List.mem_or_eq_of_mem_set h with h' | h'
          · exact hlines l h'
          · subst h'
            exact hok.1
        · simp only [List.mem_singleton] at h
          subst h
          exact hok.2
    · exact ⟨hpool, hlines⟩

theorem runLineOps_preserves_ok {s : LineState} (hs : lineStateOk s)
    {ops : List LineOp} (hops : validLineOps ops = true) :
    lineStateOk (runLineOps s ops) := by
  induction ops generalizing s with
  | nil => exact hs
  | cons op ops ih =>
    simp only [validLineOps, List.all_cons, Bool.and_eq_true] at hops
    exact ih (stepLine_preserves_ok hs (by simpa [validLineOps] using hops.1))
      (by simpa [validLineOps] using hops.2)

/-- **C10** (confirmed).  For every `BufferLine` reachable from the initial
state (`BufferLinePool::default()`, no lines) through any sequence of `rent`,
`push_text`, `insert_text`, `delete_range` and `split_off` operations (with
ordered delete ranges, as `String::drain` requires), the cached `char_count`
equals the number of Unicode scalar values — i.e. of char-boundary bytes — of
the line's text.  Note that the listed operations never return a line to the
pool, so `rent` always yields a fresh line; `rent` itself does not reset a
pooled line's stale `char_count`. -/
theorem bufferLine_char_count_invariant (ops : List LineOp)
    (hops : validLineOps ops = true) :
    ∀ l ∈ (runLineOps initLineState ops).lines, l.char_count = charsCount l.text := by
  have h := runLineOps_preserves_ok (s := initLineState)
    ⟨rfl, fun l hl => by simp [initLineState] at hl⟩ hops
  intro l hl
  have := h.2 l hl
  simpa [lineCountOk] using this

theorem liveIds_cons (r : PendingRequest) (rest : List PendingRequest) :
    liveIds (r :: rest) = if r.id = 0 then liveIds rest else r.id :: liveIds rest :=
  rfl

theorem liveIds_zeroed (r : PendingRequest) (rest : List PendingRequest) :
    liveIds ({ r with id := 0 } :: rest) = liveIds rest :=
  rfl

theorem mem_liveIds_addRequestGo {id method : Nat} (hid : id ≠ 0)
    (l : List PendingRequest) (x : Nat) :
    x ∈ liveIds (addRequestGo id method l) ↔ x = id ∨ x ∈ liveIds l := by
  induction l with
  | nil => simp [addRequestGo, liveIds_cons, liveIds, hid]
  | cons r rest ih =>
    by_cases h0 : r.id = 0
    · simp [addRequestGo, h0, liveIds_cons, hid]
    · simp only [addRequestGo, h0, if_neg, liveIds_cons, if_false, List.mem_cons, ih]
      tauto

theorem nodup_liveIds_addRequestGo {id method : Nat} (hid : id ≠ 0)
    {l : List PendingRequest} (hnotin : id ∉ liveIds l)
    (h : (liveIds l).Nodup) : (liveIds (addRequestGo id method l)).Nodup := by
  induction l with
  | nil => simp [addRequestGo, liveIds_cons, liveIds, hid]
  | cons r rest ih =>
    by_cases h0 : r.id = 0
    · simp only [liveIds_cons, h0, if_pos] at hnotin h
      simpa [addRequestGo, h0, liveIds_cons, hid] using ⟨hnotin, h⟩
    · simp only [liveIds_cons, h0, if_false, List.nodup_cons, List.mem_cons] at h hnotin
      push_neg at hnotin
      simp only [addRequestGo, h0, if_false, liveIds_cons, List.nodup_cons,
        mem_liveIds_addRequestGo hid]
      refine ⟨?_, ih hnotin.2 h.2⟩
      rintro (rfl | hmem)
      · exact hnotin.1 rfl
      · exact h.1 hmem

theorem mem_liveIds_takeRequestGo {id : Nat} {l : List PendingRequest} {x : Nat}
    (hx : x ∈ liveIds (takeRequestGo id l).2) : x ∈ liveIds l := by
  induction l with
  | nil => simpa [takeRequestGo] using hx
  | cons r rest ih =>
    by_cases hr : r.id = id
    · simp only [takeRequestGo, hr, if_pos, liveIds_zeroed] at hx
      by_cases h0 : r.id = 0
      · simpa [liveIds_cons, h0] using hx
      · simp only [liveIds_cons, h0, if_false, List.mem_cons]
        exact Or.inr hx
    · simp only [takeRequestGo, hr, if_false] at hx
      by_cases h0 : r.id = 0
      · simp only [liveIds_cons, h0, if_pos] at hx ⊢
        exact ih hx
      · simp only [liveIds_cons, h0, if_false, List.mem_cons] at hx ⊢
        rcases hx with hx | hx
        · exact Or.inl hx
        · exact Or.inr (ih hx)

theorem not_mem_liveIds_takeRequestGo {id : Nat} (hid : id ≠ 0)
    {l : List PendingRequest} (h : (liveIds l).Nodup) :
    id ∉ liveIds (takeRequestGo id l).2 := by
  induction l with
  | nil => simp [takeRequestGo, liveIds]
  | cons r rest ih =>
    by_cases hr : r.id = id
    · have hrne : ¬(r.id = 0) := by rw [hr]; exact hid
      simp only [takeRequestGo, hr, if_pos, liveIds_zeroed]
      simp only [liveIds_cons, hrne, if_false, List.nodup_cons] at h
      rw [hr] at h
      exact h.1
    · simp only [takeRequestGo, hr, if_false]
      by_cases h0 : r.id = 0
      · simp only [liveIds_cons, h0, if_pos] at h ⊢
        exact ih h
      · simp only [liveIds_cons, h0, if_false, List.nodup_cons, List.mem_cons] at h ⊢
        rintro (rfl | hmem)
        · exact hr rfl
        · exact ih h.2 hmem

theorem nodup_liveIds_takeRequestGo {id : Nat} {l : List PendingRequest}
    (h : (liveIds l).Nodup) : (liveIds (takeRequestGo id l).2).Nodup := by
  induction l with
  | nil => simpa [takeRequestGo] using h
  | cons r rest ih =>
    by_cases hr : r.id = id
    · simp only [takeRequestGo, hr, if_pos, liveIds_zeroed]
      by_cases h0 : r.id = 0
      · simpa [liveIds_cons, h0] using h
      · simp only [liveIds_cons, h0, if_false, List.nodup_cons] at h
        exact h.2
    · simp only [takeRequestGo, hr, if_false]
      by_cases h0 : r.id = 0
      · simp only [liveIds_cons, h0, if_pos] at h ⊢
        exact ih h
      · simp only [liveIds_cons, h0, if_false, List.nodup_cons] at h ⊢
        exact ⟨fun hmem => h.1 (mem_liveIds_takeRequestGo hmem), ih h.2⟩

theorem takeRequestGo_none_of_not_mem {id : Nat} (hid : id ≠ 0)
    {l : List PendingRequest} (h : id ∉ liveIds l) :
    (takeRequestGo id l).1 = none := by
  induction l with
  | nil => simp [takeRequestGo]
  | cons r rest ih =>
    by_cases hr : r.id = id
    · exfalso
      apply h
      have hrne : ¬(r.id = 0) := by rw [hr]; exact hid
      simp [liveIds_cons, hrne, hr, hid]
    · simp only [takeRequestGo, hr, if_false]
      apply ih
      intro hmem
      apply h
      by_cases h0 : r.id = 0 <;> simp [liveIds_cons, h0, hmem]

/-- The invariant maintained by request issue and response dispatch: live ids
are positive, below the id counter, and pairwise distinct. -/
def lspRequestInv (s : LspRequestState) : Prop :=
  1 ≤ s.next_request_id ∧
    (∀ x ∈ liveIds s.pending.pending_requests, 0 < x ∧ x < s.next_request_id) ∧
    (liveIds s.pending.pending_requests).Nodup

theorem stepLspRequest_preserves_inv {s : LspRequestState} (hs : lspRequestInv s)
    (op : LspRequestOp) : lspRequestInv (stepLspRequest s op) := by
  obtain ⟨h1, hlt, hnd⟩ := hs
  cases op with
  | request method =>
    have hid : s.next_request_id ≠ 0 := by omega
    have hnotin : s.next_request_id ∉ liveIds s.pending.pending_requests := by
      intro hmem
      exact absurd (hlt _ hmem).2 (lt_irrefl _)
    refine ⟨?_, ?_, ?_⟩
    · show 1 ≤ s.next_request_id + 1
      omega
    · intro x hx
      have hx' : x ∈ liveIds
          (addRequestGo s.next_request_id method s.pending.pending_requests) := hx
      show 0 < x ∧ x < s.next_request_id + 1
      rcases (mem_liveIds_addRequestGo hid _ x).1 hx' with rfl | hx2
      · omega
      · have := hlt x hx2
        omega
    · show (liveIds (addRequestGo s.next_request_id method
        s.pending.pending_requests)).Nodup
      exact nodup_liveIds_addRequestGo hid hnotin hnd
  | response id =>
    refine ⟨h1, ?_, ?_⟩
    · intro x hx
      have hx' : x ∈ liveIds (takeRequestGo id s.pending.pending_requests).2 := hx
      show 0 < x ∧ x < s.next_request_id
      exact hlt x (mem_liveIds_takeRequestGo hx')
    · show (liveIds (takeRequestGo id s.pending.pending_requests).2).Nodup
      exact nodup_liveIds_takeRequestGo hnd

theorem runLspRequest_preserves_inv {s : LspRequestState} (hs : lspRequestInv s)
    (ops : List LspRequestOp) : lspRequestInv (runLspRequest s ops) := by
  induction ops generalizing s with
  | nil => exact hs
  | cons op ops ih => exact ih (stepLspRequest_preserves_inv hs op)

/-- **C7** (confirmed).  In every reachable request-correlation state, the
live entries of the pending-request table have pairwise distinct ids (ids are
issued positive and strictly increasing; id 0 marks a free slot); after a
response with a positive id `I` is dispatched via `take`, no live entry with
id `I` remains, and a second `take I` returns `None`, so a duplicate response
is ignored by `Client::on_response`. -/
theorem pendingRequest_ids_unique_and_taken_once (ops : List LspRequestOp)
    (I : Nat) (hI : 1 ≤ I) :
    (liveIds (runLspRequest initLspRequestState ops).pending.pending_requests).Nodup ∧
      I ∉ liveIds
        (((runLspRequest initLspRequestState ops).pending.take I).2.pending_requests) ∧
      ((((runLspRequest initLspRequestState ops).pending.take I).2).take I).1 = none := by
  have hinv : lspRequestInv (runLspRequest initLspRequestState ops) :=
    runLspRequest_preserves_inv
      ⟨le_rfl, fun x hx => by simp [initLspRequestState, liveIds] at hx, by
        simp [initLspRequestState, liveIds]⟩ ops
  have hid : I ≠ 0 := by omega
  refine ⟨hinv.2.2, ?_, ?_⟩
  · simpa [PendingRequestColection.take] using
      not_mem_liveIds_takeRequestGo hid hinv.2.2
  · simp only [PendingRequestColection.take]
    exact takeRequestGo_none_of_not_mem hid
      (by simpa [PendingRequestColection.take] using
        not_mem_liveIds_takeRequestGo hid hinv.2.2)

/-- Witness for C7: two requests (ids 1 and 2) and a response to id 1; applies
the theorem at id 1. -/
theorem pendingRequest_ids_unique_and_taken_once_witness :
    (1 : Nat) ≤ 1 ∧
      ((liveIds (runLspRequest initLspRequestState
          [LspRequestOp.request 10, LspRequestOp.request 11,
            LspRequestOp.response 1]).pending.pending_requests).Nodup ∧
        1 ∉ liveIds
          (((runLspRequest initLspRequestState
              [LspRequestOp.request 10, LspRequestOp.request 11,
                LspRequestOp.response 1]).pending.take 1).2.pending_requests) ∧
        ((((runLspRequest initLspRequestState
            [LspRequestOp.request 10, LspRequestOp.request 11,
              LspRequestOp.response 1]).pending.take 1).2).take 1).1 = none) :=
  ⟨le_rfl,
    pendingRequest_ids_unique_and_taken_once
      [LspRequestOp.request 10, LspRequestOp.request 11, LspRequestOp.response 1] 1
      le_rfl⟩

/-- Witness for C10, replaying the repo's own `buffer_line_char_count` test:
rent a line, push `"abc"`, insert `"def"` at byte 1, delete bytes `1..3`,
push `"ghi"`; the invariant theorem applies and the final count is 7. -/
theorem bufferLine_char_count_invariant_witness :
    validLineOps
        [LineOp.rent, LineOp.push_text 0 [97, 98, 99],
          LineOp.insert_text 0 1 [100, 101, 102], LineOp.delete_range 0 1 3,
          LineOp.push_text 0 [103, 104, 105]] = true ∧
      ∀ l ∈ (runLineOps initLineState
          [LineOp.rent, LineOp.push_text 0 [97, 98, 99],
            LineOp.insert_text 0 1 [100, 101, 102], LineOp.delete_range 0 1 3,
            LineOp.push_text 0 [103, 104, 105]]).lines,
        l.char_count = charsCount l.text :=
  ⟨by decide, bufferLine_char_count_invariant _ (by decide)⟩


theorem applyBufferProperty_isSome_iff (tok : String) (props : BufferProperties) :
    (applyBufferProperty tok props).isSome = isBufferPropertyToken tok := by
  have h : tok = "text" ∨ tok = "scratch" ∨ tok = "history-enabled" ∨
      tok = "history-disabled" ∨ tok = "saving-enabled" ∨ tok = "saving-disabled" ∨
      tok = "word-database-enabled" ∨ tok = "word-database-disabled" ∨
      (tok ≠ "text" ∧ tok ≠ "scratch" ∧ tok ≠ "history-enabled" ∧
        tok ≠ "history-disabled" ∧ tok ≠ "saving-enabled" ∧ tok ≠ "saving-disabled" ∧
        tok ≠ "word-database-enabled" ∧ tok ≠ "word-database-disabled") := by
    tauto
  rcases h with rfl | rfl | rfl | rfl | rfl | rfl | rfl | rfl | ⟨h1, h2, h3, h4, h5, h6, h7, h8⟩
  all_goals first
  | rfl
  | (simp [applyBufferProperty, isBufferPropertyToken, h1, h2, h3, h4, h5, h6, h7, h8])

theorem openParseGo_all_props (rest : List String) :
    ∀ path props, (∀ t ∈ (path :: rest).dropLast, isBufferPropertyToken t = true) →
      openParseGo path props rest =
        .ok ((path :: rest).getLast (List.cons_ne_nil path rest),
          (path :: rest).dropLast.foldl
            (fun p t => (applyBufferProperty t p).getD p) props) := by
  induction rest with
  | nil => intro path props _; rfl
  | cons a rest ih =>
    intro path props hall
    have hpath : isBufferPropertyToken path = true := by
      apply hall
      simp [List.dropLast_cons_of_ne_nil]
    have hsome : (applyBufferProperty path props).isSome = true := by
      rw [applyBufferProperty_isSome_iff]; exact hpath
    obtain ⟨props', hprops'⟩ := Option.isSome_iff_exists.1 hsome
    have htail : ∀ t ∈ (a :: rest).dropLast, isBufferPropertyToken t = true := by
      intro t ht
      apply hall
      simp only [List.dropLast_cons_of_ne_nil (List.cons_ne_nil a rest), List.mem_cons]
      exact Or.inr ht
    simp only [openParseGo, hprops']
    rw [ih a props' htail]
    congr 1
    refine Prod.ext ?_ ?_
    · simp [List.getLast_cons]
    · simp only [List.dropLast_cons_of_ne_nil (List.cons_ne_nil a rest), List.foldl_cons,
        hprops', Option.getD_some]

theorem openParseGo_bad_prop (rest : List String) :
    ∀ path props, (∃ t ∈ (path :: rest).dropLast, isBufferPropertyToken t = false) →
      openParseGo path props rest = .error .NoSuchBufferProperty := by
  induction rest with
  | nil =>
    intro path props hbad
    simp at hbad
  | cons a rest ih =>
    intro path props hbad
    by_cases hpath : isBufferPropertyToken path = true
    · have hsome : (applyBufferProperty path props).isSome = true := by
        rw [applyBufferProperty_isSome_iff]; exact hpath
      obtain ⟨props', hprops'⟩ := Option.isSome_iff_exists.1 hsome
      simp only [openParseGo, hprops']
      apply ih
      obtain ⟨t, ht, htbad⟩ := hbad
      simp only [List.dropLast_cons_of_ne_nil (List.cons_ne_nil a rest),
        List.mem_cons] at ht
      rcases ht with rfl | ht
      · rw [hpath] at htbad; cases htbad
      · exact ⟨t, ht, htbad⟩
    · have hnone : applyBufferProperty path props = none := by
        rcases h : applyBufferProperty path props with _ | p'
        · rfl
        · exfalso
          apply hpath
          rw [← applyBufferProperty_isSome_iff path props, h]
          rfl
      simp [openParseGo, hnone]

/-- **C2**, counterexample.  `open foo.txt scratch`: the claim reads the first
token as the path and `scratch` as a property, so it succeeds with scratch
properties; the source instead matches the token *before* each property token
(`match path { ... } path = arg;`), so it tries to interpret `foo.txt` as a
property and fails with `NoSuchBufferProperty`. -/
theorem open_first_token_path_counterexample :
    openParseArgs ["foo.txt", "scratch"] = .error .NoSuchBufferProperty ∧
      openParseArgsClaim ["foo.txt", "scratch"] =
        .ok ("foo.txt", BufferProperties.scratch) :=
  ⟨rfl, rfl⟩

/-- **C2** (corrected).  In the `open` command the *last* positional token is
the path, and every *preceding* positional token must be one of the eight
buffer-property names, folded left-to-right over `BufferProperties::text()`;
a preceding token that is not a property name fails the command with
`NoSuchBufferProperty`. -/
theorem open_last_token_path_props_before (args : List String) (h : args ≠ []) :
    ((∀ t ∈ args.dropLast, isBufferPropertyToken t = true) →
        openParseArgs args = .ok (args.getLast h, foldBufferProperties args.dropLast)) ∧
      ((∃ t ∈ args.dropLast, isBufferPropertyToken t = false) →
        openParseArgs args = .error .NoSuchBufferProperty) := by
  match args with
  | [] => exact absurd rfl h
  | path :: rest =>
    constructor
    · intro hall
      simpa [openParseArgs, foldBufferProperties] using
        openParseGo_all_props rest path BufferProperties.text hall
    · intro hbad
      simpa [openParseArgs] using openParseGo_bad_prop rest path BufferProperties.text hbad

/-- Witness for C2: `open scratch saving-enabled my.txt` parses with path
`my.txt` and scratch properties with saving re-enabled. -/
theorem open_last_token_path_props_before_witness :
    (["scratch", "saving-enabled", "my.txt"] : List String) ≠ [] ∧
      (∀ t ∈ (["scratch", "saving-enabled", "my.txt"] : List String).dropLast,
        isBufferPropertyToken t = true) ∧
      openParseArgs ["scratch", "saving-enabled", "my.txt"] =
        .ok ((["scratch", "saving-enabled", "my.txt"] : List String).getLast
          (by decide), foldBufferProperties
            (["scratch", "saving-enabled", "my.txt"] : List String).dropLast) :=
  ⟨by decide, by decide,
    (open_last_token_path_props_before ["scratch", "saving-enabled", "my.txt"]
      (by decide)).1 (by decide)⟩

theorem reopenAllGo_tolerated (results : List (Except BufferReadError Unit)) :
    ∀ count, (∀ r ∈ results, r ≠ .error .InvalidData ∧ r ≠ .error .Io) →
      reopenAllGo count true results =
        if count + reopenOkCount results = 0 then
          .error (.BufferReadError .FileNotFound)
        else .ok (count + reopenOkCount results) := by
  induction results with
  | nil => intro count _; simp [reopenAllGo, reopenOkCount]
  | cons r rest ih =>
    intro count hok
    have hr := hok r (List.mem_cons_self r rest)
    have hrest : ∀ x ∈ rest, x ≠ .error .InvalidData ∧ x ≠ .error .Io :=
      fun x hx => hok x (List.mem_cons_of_mem r hx)
    match r with
    | .ok _ =>
      simp only [reopenAllGo, ih (count + 1) hrest, reopenOkCount, List.countP_cons]
      have : (count + 1) + rest.countP (fun r => r matches .ok _) =
          count + (rest.countP (fun r => r matches .ok _) + 1) := by omega
      simp [reopenOkCount] at this ⊢
      omega
    | .error .FileNotFound =>
      simp only [reopenAllGo, ih count hrest, reopenOkCount, List.countP_cons]
      simp [reopenOkCount]
    | .error .InvalidData => exact absurd rfl hr.1
    | .error .Io => exact absurd rfl hr.2

theorem reopenAllGo_aborts (pre : List (Except BufferReadError Unit))
    {e : BufferReadError} (he : e = .InvalidData ∨ e = .Io)
    (post : List (Except BufferReadError Unit))
    (hpre : ∀ r ∈ pre, r ≠ .error .InvalidData ∧ r ≠ .error .Io) :
    ∀ count b, reopenAllGo count b (pre ++ .error e :: post) =
      .error (.BufferReadError e) := by
  induction pre with
  | nil =>
    intro count b
    rcases he with rfl | rfl <;> rfl
  | cons r rest ih =>
    intro count b
    have hr := hpre r (List.mem_cons_self r rest)
    have hrest : ∀ x ∈ rest, x ≠ .error .InvalidData ∧ x ≠ .error .Io :=
      fun x hx => hpre x (List.mem_cons_of_mem r hx)
    match r with
    | .ok _ => exact ih hrest _ _
    | .error .FileNotFound => exact ih hrest _ _
    | .error .InvalidData => exact absurd rfl hr.1
    | .error .Io => exact absurd rfl hr.2

/-- **C5**, counterexample.  A batch whose single buffer fails with
`FileNotFound` does not complete successfully: since `all_files_found` is
initialized `true` and never set `false`, the final `count == 0 &&
all_files_found` check fires and `reopen-all` fails with
`BufferReadError::FileNotFound`, although every failure in the batch was a
tolerated `FileNotFound`. -/
theorem reopenAll_not_ok_counterexample :
    reopenAll [.error .FileNotFound] =
        .error (.BufferReadError .FileNotFound) ∧
      ∀ r ∈ ([.error .FileNotFound] : List (Except BufferReadError Unit)),
        r = .ok () ∨ r = .error .FileNotFound := by
  exact ⟨rfl, by decide⟩

/-- **C5** (corrected).  `reopen-all` never aborts on `FileNotFound`
(processing continues through the whole batch) and any other read error stops
the batch with that error; when no other error occurs, the command succeeds
with the number of re-read buffers — but only if at least one re-read
succeeded; when every outcome is `FileNotFound` (or the batch is empty) it
fails with `FileNotFound`. -/
theorem reopenAll_tolerates_fnf_amended (results : List (Except BufferReadError Unit)) :
    ((∀ r ∈ results, r ≠ .error .InvalidData ∧ r ≠ .error .Io) →
        reopenAll results =
          if reopenOkCount results = 0 then
            .error (.BufferReadError .FileNotFound)
          else .ok (reopenOkCount results)) ∧
      (∀ pre post : List (Except BufferReadError Unit), ∀ e : BufferReadError,
        (e = .InvalidData ∨ e = .Io) →
          (∀ r ∈ pre, r ≠ .error .InvalidData ∧ r ≠ .error .Io) →
          results = pre ++ .error e :: post →
          reopenAll results = .error (.BufferReadError e)) := by
  constructor
  · intro hok
    simpa [reopenAll] using reopenAllGo_tolerated results 0 hok
  · rintro pre post e he hpre rfl
    exact reopenAllGo_aborts pre he post hpre 0 true

/-- Witness for C5: a batch `[ok, FileNotFound, ok]` re-reads two buffers and
succeeds; a batch ending in an `Io` error aborts with it. -/
theorem reopenAll_tolerates_fnf_amended_witness :
    (∀ r ∈ ([.ok (), .error .FileNotFound, .ok ()] :
          List (Except BufferReadError Unit)),
        r ≠ .error .InvalidData ∧ r ≠ .error .Io) ∧
      reopenAll [.ok (), .error .FileNotFound, .ok ()] =
        (if reopenOkCount [.ok (), .error .FileNotFound, .ok ()] = 0 then
          .error (.BufferReadError .FileNotFound)
        else .ok (reopenOkCount [.ok (), .error .FileNotFound, .ok ()])) :=
  ⟨by decide,
    (reopenAll_tolerates_fnf_amended [.ok (), .error .FileNotFound, .ok ()]).1
      (by decide)⟩



theorem charIndicesFrom_ge (l : List Char) :
    ∀ k, ∀ x ∈ charIndicesFrom k l, k ≤ x.1 := by
  induction l with
  | nil => intro k x hx; simp [charIndicesFrom] at hx
  | cons c rest ih =>
    intro k x hx
    simp only [charIndicesFrom, List.mem_cons] at hx
    rcases hx with rfl | hx
    · exact le_rfl
    · have := ih (k + c.utf8Size) x hx
      omega

theorem charIndicesFrom_lt (l : List Char) :
    ∀ k, ∀ x ∈ charIndicesFrom k l, x.1 < k + utf8Len l := by
  induction l with
  | nil => intro k x hx; simp [charIndicesFrom] at hx
  | cons c rest ih =>
    intro k x hx
    simp only [charIndicesFrom, List.mem_cons] at hx
    have hsz : 0 < c.utf8Size := Char.utf8Size_pos c
    rcases hx with rfl | hx
    · simp only [utf8Len, List.map_cons, List.sum_cons]
      omega
    · have := ih (k + c.utf8Size) x hx
      simp only [utf8Len, List.map_cons, List.sum_cons] at this ⊢
      omega

theorem charIndicesFrom_split_bounds (l : List Char) :
    ∀ k pre col c post, charIndicesFrom k l = pre ++ (col, c) :: post →
      (∀ x ∈ pre, x.1 < col) ∧ (∀ x ∈ post, col < x.1) := by
  induction l with
  | nil =>
    intro k pre col c post h
    exact absurd h (by simp [charIndicesFrom])
  | cons c0 rest ih =>
    intro k pre col c post h
    simp only [charIndicesFrom] at h
    match pre, h with
    | [], h =>
      simp only [List.nil_append, List.cons.injEq] at h
      obtain ⟨h1, h2⟩ := h
      obtain ⟨rfl, rfl⟩ : k = col ∧ c0 = c := by
        simpa [Prod.ext_iff] using h1
      refine ⟨by simp, ?_⟩
      intro x hx
      rw [← h2] at hx
      have := charIndicesFrom_ge rest (k + c0.utf8Size) x hx
      have hsz : 0 < c0.utf8Size := Char.utf8Size_pos c0
      omega
    | p0 :: pre', h =>
      simp only [List.cons_append, List.cons.injEq] at h
      obtain ⟨rfl, h2⟩ := h
      have hbounds := ih (k + c0.utf8Size) pre' col c post h2
      have hcolmem : (col, c) ∈ charIndicesFrom (k + c0.utf8Size) rest := by
        rw [h2]
        simp
      have hcol := charIndicesFrom_ge rest (k + c0.utf8Size) _ hcolmem
      have hsz : 0 < c0.utf8Size := Char.utf8Size_pos c0
      refine ⟨?_, hbounds.2⟩
      intro x hx
      simp only [List.mem_cons] at hx
      rcases hx with rfl | hx
      · simp only at hcol ⊢
        omega
      · exact hbounds.1 x hx

theorem filterMapDelim_cons_self (d : Char) (i : Nat) (rest : List (Nat × Char)) :
    (((i, d) :: rest).filterMap fun ic => if ic.2 = d then some ic.1 else none) =
      i :: rest.filterMap fun ic => if ic.2 = d then some ic.1 else none := by
  simp [List.filterMap_cons]

theorem filterMapDelim_cons_ne {c d : Char} (h : c ≠ d) (i : Nat)
    (rest : List (Nat × Char)) :
    (((i, c) :: rest).filterMap fun ic => if ic.2 = d then some ic.1 else none) =
      rest.filterMap fun ic => if ic.2 = d then some ic.1 else none := by
  simp [List.filterMap_cons, h]

theorem findDelimGo_cons_ne {c d : Char} (h : c ≠ d) {col i last_i : Nat}
    {rest : List (Nat × Char)} {is_right_delim : Bool} :
    findDelimGo col d ((i, c) :: rest) is_right_delim last_i =
      findDelimGo col d rest is_right_delim last_i := by
  simp [findDelimGo, h]

theorem findDelimGo_cons_lt {col i : Nat} (h : i < col) (d : Char)
    (last_i : Nat) (rest : List (Nat × Char)) (is_right_delim : Bool) :
    findDelimGo col d ((i, d) :: rest) is_right_delim last_i =
      findDelimGo col d rest (!is_right_delim) i := by
  have hle : ¬ col ≤ i := by omega
  simp [findDelimGo, hle]

theorem findDelimGo_cons_right {col i : Nat} (h : col ≤ i) (d : Char)
    (last_i : Nat) (rest : List (Nat × Char)) :
    findDelimGo col d ((i, d) :: rest) true last_i =
      some (last_i + d.utf8Size, i) := by
  simp [findDelimGo, h]

theorem findDelimGo_cons_at_cursor (col : Nat) (d : Char) (last_i : Nat)
    (rest : List (Nat × Char)) :
    findDelimGo col d ((col, d) :: rest) false last_i =
      findDelimGo col d rest true col := by
  simp [findDelimGo]

theorem findDelimGo_pre (col : Nat) (d : Char) (pre : List (Nat × Char)) :
    ∀ rest is_right_delim last_i, (∀ x ∈ pre, x.1 < col) →
      ∃ last_i', findDelimGo col d (pre ++ rest) is_right_delim last_i =
        findDelimGo col d rest
          (xor is_right_delim (Nat.bodd (pre.countP fun x => x.2 == d))) last_i' := by
  induction pre with
  | nil =>
    intro rest is_right_delim last_i _
    exact ⟨last_i, by simp⟩
  | cons ic pre' ih =>
    intro rest is_right_delim last_i hlt
    obtain ⟨i, c⟩ := ic
    have hi : i < col := hlt (i, c) (List.mem_cons_self _ _)
    have hrest : ∀ x ∈ pre', x.1 < col := fun x hx => hlt x (List.mem_cons_of_mem _ hx)
    by_cases hc : c = d
    · subst hc
      rw [List.cons_append, findDelimGo_cons_lt hi]
      obtain ⟨last_i', hrec⟩ := ih rest (!is_right_delim) i hrest
      refine ⟨last_i', hrec.trans ?_⟩
      congr 1
      simp only [List.countP_cons, beq_self_eq_true, if_pos, Nat.bodd_add]
      cases is_right_delim <;> cases Nat.bodd (pre'.countP fun x => x.2 == c) <;> rfl
    · rw [List.cons_append, findDelimGo_cons_ne hc]
      obtain ⟨last_i', hrec⟩ := ih rest is_right_delim last_i hrest
      refine ⟨last_i', hrec.trans ?_⟩
      congr 2
      simp [List.countP_cons, hc]

theorem findDelimGo_post (col : Nat) (d : Char) (post : List (Nat × Char)) :
    ∀ j, (∀ x ∈ post, col < x.1) →
      (post.filterMap fun ic => if ic.2 = d then some ic.1 else none).head? = some j →
      findDelimGo col d post true col = some (col + d.utf8Size, j) := by
  induction post with
  | nil => intro j _ hj; simp at hj
  | cons ic post' ih =>
    intro j hgt hj
    obtain ⟨i, c⟩ := ic
    by_cases hc : c = d
    · subst hc
      rw [filterMapDelim_cons_self, List.head?_cons] at hj
      obtain rfl : i = j := by simpa using hj
      have hcol : col ≤ i := le_of_lt (hgt (i, c) (List.mem_cons_self _ _))
      exact findDelimGo_cons_right hcol c col post'
    · rw [findDelimGo_cons_ne hc]
      apply ih j (fun x hx => hgt x (List.mem_cons_of_mem _ hx))
      rw [filterMapDelim_cons_ne hc] at hj
      exact hj

theorem countP_eq_length_filterMap (d : Char) (l : List (Nat × Char)) :
    (l.filterMap fun ic => if ic.2 = d then some ic.1 else none).length =
      l.countP fun x => x.2 == d := by
  induction l with
  | nil => rfl
  | cons ic rest ih =>
    obtain ⟨i, c⟩ := ic
    by_cases hc : c = d
    · subst hc
      rw [filterMapDelim_cons_self]
      simp [List.countP_cons, ih]
    · rw [filterMapDelim_cons_ne hc]
      simp [List.countP_cons, hc, ih]

/-- **C4**, counterexample, from the repo's own `buffer_find_delimiter_pairs`
test.  In the line `|a|bcd|efg|` the cursor at byte 2 sits exactly on the
second `|` (a right-polarity occurrence); the function returns the range
`(1, 2)` — the pair `|a|` that *ends* at the cursor — not a pair whose left
delimiter is the occurrence at the cursor (which would start at byte 3). -/
theorem find_delimiter_pair_at_cursor_counterexample :
    find_delimiter_pair_at
        ['|', 'a', '|', 'b', 'c', 'd', '|', 'e', 'f', 'g', '|'] 2 '|' =
        some (1, 2) ∧
      (2 : Nat) ∈ delimOccurrences
        ['|', 'a', '|', 'b', 'c', 'd', '|', 'e', 'f', 'g', '|'] '|' ∧
      (1 : Nat) ≠ 2 + Char.utf8Size '|' := by
  refine ⟨by decide, by decide, by decide⟩

/-- **C4** (corrected).  When the cursor sits exactly on a delimiter
occurrence of *left* polarity — an even number of occurrences precede it in
the line — and another occurrence follows, `find_delimiter_pair_at` returns
the pair whose left delimiter is the occurrence at the cursor: the range from
the cursor's byte plus the delimiter's width to the next occurrence.  (On an
occurrence of right polarity the returned pair instead *ends* at the cursor,
as the counterexample shows.) -/
theorem find_delimiter_pair_at_left_polarity (line : List Char) (col j : Nat)
    (delimiter : Char)
    (hocc : col ∈ delimOccurrences line delimiter)
    (heven : Nat.bodd ((delimOccurrences line delimiter).filter
      (fun x => decide (x < col))).length = false)
    (hnext : ((delimOccurrences line delimiter).filter
      (fun x => decide (col < x))).head? = some j) :
    find_delimiter_pair_at line col delimiter = some (col + delimiter.utf8Size, j) := by
  obtain ⟨ic, hicmem, hic⟩ := List.mem_filterMap.1 hocc
  obtain ⟨i2, c2⟩ := ic
  have hicd : c2 = delimiter ∧ i2 = col := by
    by_cases hc : c2 = delimiter
    · refine ⟨hc, ?_⟩
      simpa [hc] using hic
    · simp [hc] at hic
  obtain ⟨rfl, rfl⟩ := hicd
  obtain ⟨pre, post, hsplit⟩ := List.append_of_mem hicmem
  rw [charIndices] at hsplit
  have hbounds := charIndicesFrom_split_bounds line 0 pre i2 c2 post hsplit
  have hoccsplit : delimOccurrences line c2 =
      (pre.filterMap fun ic => if ic.2 = c2 then some ic.1 else none) ++
        i2 :: (post.filterMap fun ic => if ic.2 = c2 then some ic.1 else none) := by
    simp only [delimOccurrences, charIndices]
    rw [hsplit, List.filterMap_append, filterMapDelim_cons_self]
  have hprelt : ∀ x ∈ (pre.filterMap fun ic => if ic.2 = c2 then some ic.1 else none),
      x < i2 := by
    intro x hx
    obtain ⟨⟨xi, xc⟩, hxmem, hxeq⟩ := List.mem_filterMap.1 hx
    by_cases hxc : xc = c2
    · obtain rfl : xi = x := by simpa [hxc] using hxeq
      exact hbounds.1 _ hxmem
    · simp [hxc] at hxeq
  have hpostgt : ∀ x ∈ (post.filterMap fun ic => if ic.2 = c2 then some ic.1 else none),
      i2 < x := by
    intro x hx
    obtain ⟨⟨xi, xc⟩, hxmem, hxeq⟩ := List.mem_filterMap.1 hx
    by_cases hxc : xc = c2
    · obtain rfl : xi = x := by simpa [hxc] using hxeq
      exact hbounds.2 _ hxmem
    · simp [hxc] at hxeq
  have hfilterlt : (delimOccurrences line c2).filter (fun x => decide (x < i2)) =
      pre.filterMap fun ic => if ic.2 = c2 then some ic.1 else none := by
    rw [hoccsplit, List.filter_append, List.filter_cons]
    have h1 : (pre.filterMap fun ic => if ic.2 = c2 then some ic.1 else none).filter
        (fun x => decide (x < i2)) =
        pre.filterMap fun ic => if ic.2 = c2 then some ic.1 else none :=
      List.filter_eq_self.2 fun x hx => by simpa using hprelt x hx
    have h2 : (post.filterMap fun ic => if ic.2 = c2 then some ic.1 else none).filter
        (fun x => decide (x < i2)) = [] :=
      List.filter_eq_nil_iff.2 fun x hx => by
        have := hpostgt x hx
        simp only [decide_eq_true_eq]
        omega
    simp [h1, h2]
  have hfiltergt : (delimOccurrences line c2).filter (fun x => decide (i2 < x)) =
      post.filterMap fun ic => if ic.2 = c2 then some ic.1 else none := by
    rw [hoccsplit, List.filter_append, List.filter_cons]
    have h1 : (pre.filterMap fun ic => if ic.2 = c2 then some ic.1 else none).filter
        (fun x => decide (i2 < x)) = [] :=
      List.filter_eq_nil_iff.2 fun x hx => by
        have := hprelt x hx
        simp only [decide_eq_true_eq]
        omega
    have h2 : (post.filterMap fun ic => if ic.2 = c2 then some ic.1 else none).filter
        (fun x => decide (i2 < x)) =
        post.filterMap fun ic => if ic.2 = c2 then some ic.1 else none :=
      List.filter_eq_self.2 fun x hx => by simpa using hpostgt x hx
    simp [h1, h2]
  have heven' : Nat.bodd (pre.countP fun x => x.2 == c2) = false := by
    rw [← countP_eq_length_filterMap, ← hfilterlt]
    exact heven
  have hclamp : min i2 (utf8Len line) = i2 := by
    have := charIndicesFrom_lt line 0 (i2, c2) (by rw [hsplit]; simp)
    simp only [Nat.zero_add] at this
    omega
  rw [find_delimiter_pair_at, hclamp, charIndices, hsplit]
  obtain ⟨last_i', hpre⟩ := findDelimGo_pre i2 c2 pre ((i2, c2) :: post) false 0 hbounds.1
  rw [hpre, heven']
  have hcursor : findDelimGo i2 c2 ((i2, c2) :: post) (xor false false) last_i' =
      findDelimGo i2 c2 post true i2 := by
    simpa using findDelimGo_cons_at_cursor i2 c2 last_i' post
  rw [hcursor]
  apply findDelimGo_post i2 c2 post j hbounds.2
  rw [← hfiltergt]
  exact hnext

/-- Witness for C4, from the repo's `buffer_find_delimiter_pairs` test: cursor
at byte 0 of `|a|bcd|efg|` sits on the first `|` (left polarity, no
occurrences before it; next occurrence at byte 2); the theorem yields the
range `(1, 2)`. -/
theorem find_delimiter_pair_at_left_polarity_witness :
    (0 : Nat) ∈ delimOccurrences
        ['|', 'a', '|', 'b', 'c', 'd', '|', 'e', 'f', 'g', '|'] '|' ∧
      find_delimiter_pair_at
        ['|', 'a', '|', 'b', 'c', 'd', '|', 'e', 'f', 'g', '|'] 0 '|' =
        some (0 + Char.utf8Size '|', 2) :=
  ⟨by decide,
    find_delimiter_pair_at_left_polarity
      ['|', 'a', '|', 'b', 'c', 'd', '|', 'e', 'f', 'g', '|'] 0 2 '|'
      (by decide) (by decide) (by decide)⟩



theorem tokenizeGo_congr (n : Nat) :
    ∀ input : List Char, ∀ f1 f2, input.length ≤ n → input.length < f1 →
      input.length < f2 → tokenizeGo f1 input = tokenizeGo f2 input := by
  induction n with
  | zero =>
    intro input f1 f2 h0 h1 h2
    match f1, f2 with
    | a + 1, b + 1 =>
      simp only [tokenizeGo]
      rcases hnt : next_token input with _ | ⟨k, tok, rest⟩
      · rfl
      · have := next_token_shrinks input k tok rest hnt
        omega
  | succ n ih =>
    intro input f1 f2 h0 h1 h2
    match f1, f2 with
    | a + 1, b + 1 =>
      simp only [tokenizeGo]
      rcases hnt : next_token input with _ | ⟨k, tok, rest⟩
      · rfl
      · have hr := next_token_shrinks input k tok rest hnt
        dsimp only
        rw [ih rest a b (by omega) (by omega) (by omega)]

theorem tokenize_cons (input : List Char) :
    tokenize input =
      match next_token input with
      | none => []
      | some (k, tok, rest) => (k, tok) :: tokenize rest := by
  rcases hnt : next_token input with _ | ⟨k, tok, rest⟩
  · simp only [tokenize, tokenizeGo, hnt]
  · have hr := next_token_shrinks input k tok rest hnt
    have h1 : tokenize input = (k, tok) :: tokenizeGo input.length rest := by
      simp only [tokenize, tokenizeGo, hnt]
    have h2 : tokenizeGo input.length rest = tokenizeGo (rest.length + 1) rest :=
      tokenizeGo_congr rest.length rest input.length (rest.length + 1) le_rfl hr
        (by omega)
    rw [h1, h2]
    rfl

theorem add_value_bang {cmd : BuiltinCommandSpec} {args : CommandArgs}
    {v : List Char} {args' : CommandArgs} (h : add_value cmd args v = .ok args') :
    args'.bang = args.bang := by
  by_cases h1 : args.required_values.length + args.other_values.length <
      cmd.required_values_len
  · simp only [add_value, if_pos h1] at h
    cases h
    rfl
  · by_cases h2 : args.required_values.length + args.other_values.length -
        cmd.required_values_len <
        (if cmd.has_extra_values then MAX_OTHER_VALUES_LEN
          else cmd.required_values_len + cmd.optional_values_len)
    · simp only [add_value, if_neg h1, if_pos h2] at h
      cases h
      rfl
    · simp only [add_value, if_neg h1, if_neg h2] at h
      cases h

theorem add_flag_bang {cmd : BuiltinCommandSpec} {args : CommandArgs}
    {k v : List Char} {args' : CommandArgs} (h : add_flag cmd args k v = .ok args') :
    args'.bang = args.bang := by
  simp only [add_flag] at h
  split at h
  · cases h
    rfl
  · cases h

theorem bindLoop_bang (cmd : BuiltinCommandSpec) (name : List Char)
    (args : CommandArgs) (toks : List (CommandTokenKind × List Char)) :
    ∀ args', bindLoop cmd name args toks = .ok args' → args'.bang = args.bang := by
  induction args, toks using bindLoop.induct cmd name <;> intro args' h <;>
    first
    | (rename_i args1 hadd ih
       simp only [bindLoop, hadd] at h
       exact (ih args' h).trans (add_value_bang hadd))
    | (rename_i args1 hadd ih
       simp only [bindLoop, hadd] at h
       exact (ih args' h).trans (add_flag_bang hadd))
    | (simp only [bindLoop] at h
       split at h
       · cases h
       · (cases h; rfl))
    | (simp only [bindLoop, *] at h
       cases h)
    | (simp only [bindLoop, *] at h)



/-- **C6**, counterexample.  With the parser tests' command table, the input
`c !` — whitespace between the command name and the `!` — still parses with
the bang flag set: the tokenizer skips whitespace before producing the `Bang`
token, and `parse` only looks at the second token.  The claim says the bang
flag is set exactly when `!` follows the name immediately with no whitespace,
which is false here. -/
theorem parse_bang_after_whitespace_counterexample :
    parse testCommands ['c', ' ', '!'] = .ok (0, ⟨true, [], [], []⟩) ∧
      immediateBang ['c', ' ', '!'] = false := by
  exact ⟨by decide, by decide⟩

/-- **C6** (corrected).  Parsing sets the bang flag exactly when the *second
token* of the stream is a `Bang` token — whitespace and line-continuation
backslashes between the command name and the `!` are skipped by the
tokenizer, so "immediately" is not required; and parsing a banged invocation
of a known command that does not accept bang fails with
`CommandDoesNotAcceptBang`. -/
theorem parse_bang_iff_second_token (tbl : List BuiltinCommandSpec)
    (text : List Char) :
    (∀ i args, parse tbl text = .ok (i, args) → args.bang = secondTokenIsBang text) ∧
      (∀ name toks i, tokenize text = (.Text, name) :: toks →
        secondTokenIsBang text = true →
        find_command tbl name = some i →
        (tbl.getD i ⟨[], false, 0, 0, false, []⟩).accepts_bang = false →
        parse tbl text = .error (.CommandDoesNotAcceptBang name)) := by
  constructor
  · intro i args h
    rcases htok : tokenize text with _ | ⟨⟨k, name⟩, toks⟩
    · simp only [parse, htok] at h
      cases h
    · cases k
      case Flag | Equals | Bang | Unterminated =>
        simp only [parse, htok] at h
        cases h
      case Text =>
        rcases hf : find_command tbl name with _ | i'
        · rcases toks with _ | ⟨⟨k2, s2⟩, toks'⟩
          · simp only [parse, htok, hf] at h
            cases h
          · cases k2 <;> simp only [parse, htok, hf] at h <;> cases h
        · have hbang : ∀ (bang : Bool) toks2,
              ((if bang && !(tbl.getD i' ⟨[], false, 0, 0, false, []⟩).accepts_bang
                then Except.error (CommandParseError.CommandDoesNotAcceptBang name)
                else (bindLoop (tbl.getD i' ⟨[], false, 0, 0, false, []⟩) name
                  ⟨bang, [], [], []⟩ toks2).map fun args => (i', args)) =
                Except.ok (i, args)) → args.bang = bang := by
            intro bang toks2 hh
            split at hh
            · cases hh
            · rcases hb : bindLoop (tbl.getD i' ⟨[], false, 0, 0, false, []⟩) name
                  ⟨bang, [], [], []⟩ toks2 with e | args0
              · rw [hb] at hh
                cases hh
              · rw [hb] at hh
                simp only [Except.map, Except.ok.injEq, Prod.mk.injEq] at hh
                obtain ⟨-, rfl⟩ := hh
                exact bindLoop_bang _ _ _ _ args0 hb
          rcases toks with _ | ⟨⟨k2, s2⟩, toks'⟩
          · have h' := h
            simp only [parse, htok, hf] at h'
            have := hbang false [] h'
            rw [this]
            simp [secondTokenIsBang, htok]
          · cases k2
            case Bang =>
              have h' := h
              simp only [parse, htok, hf] at h'
              have := hbang true toks' h'
              rw [this]
              simp [secondTokenIsBang, htok]
            case Text | Flag | Equals | Unterminated =>
              have h' := h
              simp only [parse, htok, hf] at h'
              first
              | (have hb2 := hbang false ((CommandTokenKind.Text, s2) :: toks') h'
                 rw [hb2]
                 simp [secondTokenIsBang, htok])
              | (have hb2 := hbang false ((CommandTokenKind.Flag, s2) :: toks') h'
                 rw [hb2]
                 simp [secondTokenIsBang, htok])
              | (have hb2 := hbang false ((CommandTokenKind.Equals, s2) :: toks') h'
                 rw [hb2]
                 simp [secondTokenIsBang, htok])
              | (have hb2 := hbang false ((CommandTokenKind.Unterminated, s2) :: toks') h'
                 rw [hb2]
                 simp [secondTokenIsBang, htok])
  · intro name toks i htok hsec hfind hacc
    rcases toks with _ | ⟨⟨k2, s2⟩, toks'⟩
    · simp [secondTokenIsBang, htok] at hsec
    · cases k2
      case Text | Flag | Equals | Unterminated =>
        simp [secondTokenIsBang, htok] at hsec
      case Bang =>
        simp only [parse, htok, hfind, hacc]
        rfl

/-- Witness for C6: `command-name!` parses with bang set (here the `!` *is*
immediate, and the second token is a `Bang`); and `c!` against a table whose
command rejects bang fails with `CommandDoesNotAcceptBang`. -/
theorem parse_bang_iff_second_token_witness :
    (parse testCommands
        ['c', 'o', 'm', 'm', 'a', 'n', 'd', '-', 'n', 'a', 'm', 'e', '!'] =
        .ok (0, ⟨true, [], [], []⟩) →
      (true : Bool) = secondTokenIsBang
        ['c', 'o', 'm', 'm', 'a', 'n', 'd', '-', 'n', 'a', 'm', 'e', '!']) ∧
      (tokenize ['c', '!'] = (.Text, ['c']) :: [(.Bang, ['!'])] →
        secondTokenIsBang ['c', '!'] = true →
        find_command testCommandsNoBang ['c'] = some 0 →
        (testCommandsNoBang.getD 0 ⟨[], false, 0, 0, false, []⟩).accepts_bang = false →
        parse testCommandsNoBang ['c', '!'] =
          .error (.CommandDoesNotAcceptBang ['c'])) ∧
      parse testCommandsNoBang ['c', '!'] =
        .error (.CommandDoesNotAcceptBang ['c']) :=
  ⟨fun h => (parse_bang_iff_second_token testCommands
      ['c', 'o', 'm', 'm', 'a', 'n', 'd', '-', 'n', 'a', 'm', 'e', '!']).1 0
      ⟨true, [], [], []⟩ h,
    fun h1 h2 h3 h4 => (parse_bang_iff_second_token testCommandsNoBang
      ['c', '!']).2 ['c'] [(.Bang, ['!'])] 0 h1 h2 h3 h4,
    (parse_bang_iff_second_token testCommandsNoBang ['c', '!']).2 ['c']
      [(.Bang, ['!'])] 0 (by decide) (by decide) (by decide) (by decide)⟩



/-- **C1** (code bug).  `send_pending_did_change` guards on
`textDocumentSync.change`, but builds the `contentChanges` body by matching
`textDocumentSync.save`.  With `change = Full` and `save = None` and one
pending edit on a live, saveable, pathed buffer whose content is `abc`, the
code sends a `didChange` notification with an *empty* `contentChanges` array
instead of the full buffer text; the pending list is cleared and the version
incremented as the claim says. -/
theorem send_pending_did_change_keys_on_save_kind :
    send_pending_did_change ⟨true, .full, .none⟩
        [some ⟨true, some [47, 102], [97, 98, 99]⟩]
        [⟨3, [120], [⟨⟨⟨0, 0⟩, ⟨0, 0⟩⟩, (0, 1)⟩]⟩] =
      ([⟨0, 3, []⟩], [⟨4, [], []⟩]) ∧
      ([] : List ChangeEvent) ≠ [⟨none, [97, 98, 99]⟩] ∧
      contentChangesFor TextDocumentSyncKind.full [97, 98, 99]
          ⟨3, [120], [⟨⟨⟨0, 0⟩, ⟨0, 0⟩⟩, (0, 1)⟩]⟩ =
        [⟨none, [97, 98, 99]⟩] := by
  refine ⟨rfl, by decide, rfl⟩



/-! ### List kit for positional surgery on `pre ++ line :: post` shapes -/

theorem set_len_append (l1 : List α) (x y : α) (l2 : List α) :
    (l1 ++ x :: l2).set l1.length y = l1 ++ y :: l2 := by
  rw [List.set_append]
  simp

theorem getD_len_append (l1 : List α) (x : α) (l2 : List α) (d : α) :
    (l1 ++ x :: l2).getD l1.length d = x := by
  induction l1 with
  | nil => rfl
  | cons a l1 ih => simpa using ih

theorem eraseIdx_len_append (l1 : List α) (x : α) (l2 : List α) :
    (l1 ++ x :: l2).eraseIdx l1.length = l1 ++ l2 := by
  rw [List.eraseIdx_append_of_length_le le_rfl]
  simp

theorem take_len_append (l1 l2 : List α) : (l1 ++ l2).take l1.length = l1 :=
  List.take_left l1 l2

theorem drop_len_append (l1 l2 : List α) : (l1 ++ l2).drop l1.length = l2 :=
  List.drop_left l1 l2

theorem take_len_succ_append (l1 : List α) (x : α) (l2 : List α) :
    (l1 ++ x :: l2).take (l1.length + 1) = l1 ++ [x] := by
  rw [List.take_append]
  rfl

theorem drop_len_succ_append (l1 : List α) (x : α) (l2 : List α) :
    (l1 ++ x :: l2).drop (l1.length + 1) = l2 := by
  rw [List.drop_append]
  rfl

theorem drop_len_add_append (l1 l2 : List α) (k : Nat) :
    (l1 ++ l2).drop (l1.length + k) = l2.drop k :=
  List.drop_append k

theorem take_app_left (a b : List α) : (a ++ b).take a.length = a :=
  List.take_left a b

theorem drop_app_mid (a t b : List α) :
    (a ++ t ++ b).drop (a.length + t.length) = b := by
  rw [List.append_assoc, List.drop_append, List.drop_left]

theorem lineAtD_len (pre : List (List Nat)) (line : List Nat)
    (post : List (List Nat)) : lineAtD (pre ++ line :: post) pre.length = line :=
  getD_len_append pre line post []

/-- A clamp at an in-bounds position is the identity. -/
theorem clamp_position_id {c : List (List Nat)} {p : BufferPosition}
    (h : posInBounds c p = true) : clamp_position c p = p := by
  simp only [posInBounds, Bool.and_eq_true, decide_eq_true_eq] at h
  obtain ⟨h1, h2⟩ := h
  simp only [clamp_position]
  have hl : min p.line_index (c.length - 1) = p.line_index := by omega
  rw [hl]
  have hc : min p.column_byte_index (lineAtD c p.line_index).length =
      p.column_byte_index := by omega
  rw [hc]

theorem clamp_position_decomp (pre : List (List Nat)) (line : List Nat)
    (post : List (List Nat)) (k : Nat) (hk : k ≤ line.length) :
    clamp_position (pre ++ line :: post) ⟨pre.length, k⟩ = ⟨pre.length, k⟩ := by
  apply clamp_position_id
  simp only [posInBounds, lineAtD_len, Bool.and_eq_true, decide_eq_true_eq]
  constructor
  · simp only [List.length_append, List.length_cons]
    omega
  · exact hk

/-! ### Evaluation lemmas for `insert_text` and `delete_range` -/

/-- Single-line insertion at a decomposed position. -/
theorem insert_text_single (pre : List (List Nat)) (a b : List Nat)
    (post : List (List Nat)) (t : List Nat) (h10 : 10 ∉ t) :
    insert_text (pre ++ (a ++ b) :: post) ⟨pre.length, a.length⟩ t =
      (pre ++ (a ++ t ++ b) :: post,
        ⟨⟨pre.length, a.length⟩, ⟨pre.length, a.length + t.length⟩⟩) := by
  have hk : a.length ≤ (a ++ b).length := by simp
  simp only [insert_text, clamp_position_decomp pre (a ++ b) post a.length hk,
    lineAtD_len, h10, if_false]
  rw [List.take_left' rfl, List.drop_left' rfl, set_len_append]
  congr 2
  simp
  omega

/-- Single-line deletion at a decomposed position. -/
theorem delete_range_single (pre : List (List Nat)) (a m b : List Nat)
    (post : List (List Nat)) :
    delete_range (pre ++ (a ++ m ++ b) :: post)
        ⟨⟨pre.length, a.length⟩, ⟨pre.length, a.length + m.length⟩⟩ =
      (pre ++ (a ++ b) :: post, m) := by
  have hk1 : a.length ≤ (a ++ m ++ b).length := by simp
  have hk2 : a.length + m.length ≤ (a ++ m ++ b).length := by simp
  simp only [delete_range, clamp_position_decomp pre (a ++ m ++ b) post _ hk1,
    clamp_position_decomp pre (a ++ m ++ b) post _ hk2, lineAtD_len, if_pos]
  have h1 : List.take a.length (a ++ m ++ b) = a := by
    rw [List.append_assoc, List.take_left]
  have h2 : List.drop (a.length + m.length) (a ++ m ++ b) = b := drop_app_mid a m b
  have h3 : List.take (a.length + m.length - a.length)
      (List.drop a.length (a ++ m ++ b)) = m := by
    have hd : List.drop a.length (a ++ m ++ b) = m ++ b := by
      rw [List.append_assoc, List.drop_left]
    have hn : a.length + m.length - a.length = m.length := by omega
    rw [hd, hn, List.take_left]
  rw [h1, h2, h3, set_len_append]



/-! ### `splitNl`, `joinNl` and `rustLines` support -/

theorem splitNl_ne_nil (t : List Nat) : splitNl t ≠ [] := by
  cases t with
  | nil => simp [splitNl]
  | cons b rest =>
    simp only [splitNl]
    split
    · simp
    · split <;> simp

theorem splitNl_no_nl {x : List Nat} (h : 10 ∉ x) : splitNl x = [x] := by
  induction x with
  | nil => rfl
  | cons b rest ih =>
    simp only [List.mem_cons, not_or] at h
    have hb : ¬(b = 10) := fun hh => h.1 hh.symm
    simp only [splitNl]
    rw [if_neg hb, ih h.2]

theorem splitNl_append_nl {x : List Nat} (y : List Nat) (h : 10 ∉ x) :
    splitNl (x ++ 10 :: y) = x :: splitNl y := by
  induction x with
  | nil => simp [splitNl]
  | cons b rest ih =>
    simp only [List.mem_cons, not_or] at h
    have hb : ¬(b = 10) := fun hh => h.1 hh.symm
    simp only [List.cons_append, splitNl, List.append_eq]
    rw [if_neg hb, ih h.2]

theorem splitNl_mem_no_nl : ∀ (t : List Nat), ∀ s ∈ splitNl t, 10 ∉ s := by
  intro t
  induction t using splitNl.induct with
  | case1 =>
    intro s hs
    simp only [splitNl, List.mem_singleton] at hs
    simp [hs]
  | case2 rest ih =>
    intro s hs
    simp only [splitNl, if_true, List.mem_cons] at hs
    rcases hs with hs | hs
    · simp [hs]
    · exact ih s hs
  | case3 b rest hb hseg ih =>
    exact absurd hseg (splitNl_ne_nil rest)
  | case4 b rest hb seg segs hseg ih =>
    intro s hs
    simp only [splitNl] at hs
    rw [if_neg hb, hseg] at hs
    simp only [List.mem_cons] at hs
    rcases hs with hs | hs
    · intro hmem
      rw [hs] at hmem
      simp only [List.mem_cons] at hmem
      rcases hmem with h10 | hmem
      · exact hb h10.symm
      · exact ih seg (by rw [hseg]; exact List.mem_cons_self _ _) hmem
    · exact ih s (by rw [hseg]; exact List.mem_cons_of_mem _ hs)

theorem splitNl_mem_subset : ∀ (t : List Nat), ∀ s ∈ splitNl t, ∀ b ∈ s, b ∈ t := by
  intro t
  induction t using splitNl.induct with
  | case1 =>
    intro s hs
    simp only [splitNl, List.mem_singleton] at hs
    simp [hs]
  | case2 rest ih =>
    intro s hs x hx
    simp only [splitNl, if_true, List.mem_cons] at hs
    rcases hs with hs | hs
    · rw [hs] at hx
      simp at hx
    · exact List.mem_cons_of_mem _ (ih s hs x hx)
  | case3 b rest hb hseg ih =>
    exact absurd hseg (splitNl_ne_nil rest)
  | case4 b rest hb seg segs hseg ih =>
    intro s hs x hx
    simp only [splitNl] at hs
    rw [if_neg hb, hseg] at hs
    simp only [List.mem_cons] at hs
    rcases hs with hs | hs
    · rw [hs] at hx
      simp only [List.mem_cons] at hx
      rcases hx with rfl | hx
      · exact List.mem_cons_self _ _
      · exact List.mem_cons_of_mem _
          (ih seg (by rw [hseg]; exact List.mem_cons_self _ _) x hx)
    · exact List.mem_cons_of_mem _
        (ih s (by rw [hseg]; exact List.mem_cons_of_mem _ hs) x hx)

theorem stripCr_id {s : List Nat} (h : 13 ∉ s) : stripCr s = s := by
  simp only [stripCr]
  split
  · rename_i hlast
    exact absurd (List.mem_of_mem_getLast? hlast) h
  · rfl

theorem joinNl_concat {ls : List (List Nat)} (h : ls ≠ []) (y : List Nat) :
    joinNl (ls ++ [y]) = joinNl ls ++ 10 :: y := by
  induction ls with
  | nil => exact absurd rfl h
  | cons l ls ih =>
    cases ls with
    | nil => rfl
    | cons l2 ls2 =>
      have := ih (by simp)
      simp only [List.cons_append, joinNl, List.append_eq] at this ⊢
      rw [this]
      simp

theorem foldl_nl_eq_joinNl (mid : List (List Nat)) :
    ∀ x, mid.foldl (fun acc l => acc ++ 10 :: l) x = joinNl (x :: mid) := by
  induction mid with
  | nil => intro x; rfl
  | cons m mid ih =>
    intro x
    simp only [List.foldl_cons, ih (x ++ 10 :: m)]
    cases mid with
    | nil => rfl
    | cons m2 mid2 =>
      simp only [joinNl, List.append_assoc, List.cons_append]

theorem splitNl_joinNl {ls : List (List Nat)} (hne : ls ≠ [])
    (h10 : ∀ s ∈ ls, 10 ∉ s) : splitNl (joinNl ls) = ls := by
  induction ls with
  | nil => exact absurd rfl hne
  | cons l ls ih =>
    cases ls with
    | nil =>
      simp only [joinNl]
      exact splitNl_no_nl (h10 l (List.mem_cons_self _ _))
    | cons l2 ls2 =>
      have hstep : joinNl (l :: l2 :: ls2) = l ++ 10 :: joinNl (l2 :: ls2) := rfl
      rw [hstep, splitNl_append_nl _ (h10 l (List.mem_cons_self _ _)),
        ih (by simp) fun s hs => h10 s (List.mem_cons_of_mem _ hs)]

theorem getLast?_joinNl_ne_nil {ls : List (List Nat)} {y : List Nat}
    (hy : y ≠ []) : (joinNl (ls ++ [y])).getLast? = y.getLast? := by
  cases ls with
  | nil =>
    simp [joinNl]
  | cons l ls' =>
    rw [joinNl_concat (by simp)]
    rw [List.getLast?_append]
    cases y with
    | nil => exact absurd rfl hy
    | cons b y' =>
      rw [List.getLast?_cons_cons, List.getLast?_eq_getLast (b :: y') (by simp)]
      rfl

theorem getLast?_joinNl_nil (ls : List (List Nat)) (h : ls ≠ []) :
    (joinNl (ls ++ [[]])).getLast? = some 10 := by
  rw [joinNl_concat h]
  have : joinNl ls ++ 10 :: ([] : List Nat) = joinNl ls ++ [10] := rfl
  rw [this, List.getLast?_concat]

theorem rustLines_joinNl_last_ne_nil {ls : List (List Nat)} {y : List Nat}
    (hy : y ≠ []) (h10 : ∀ s ∈ ls ++ [y], 10 ∉ s)
    (h13 : ∀ s ∈ ls ++ [y], 13 ∉ s) :
    rustLines (joinNl (ls ++ [y])) = ls ++ [y] := by
  have hne : joinNl (ls ++ [y]) ≠ [] := by
    cases ls with
    | nil => simpa [joinNl]
    | cons l ls' =>
      rw [joinNl_concat (by simp)]
      simp
  have hlast : (joinNl (ls ++ [y])).getLast? = y.getLast? :=
    getLast?_joinNl_ne_nil hy
  have hy10 : 10 ∉ y := h10 y (by simp)
  have hynot : y.getLast? ≠ some 10 := by
    intro hcon
    exact hy10 (List.mem_of_mem_getLast? hcon)
  rcases hj : joinNl (ls ++ [y]) with _ | ⟨b, rest⟩
  · exact absurd hj hne
  · rw [← hj]
    have hjoin : splitNl (joinNl (ls ++ [y])) = ls ++ [y] :=
      splitNl_joinNl (by simp) h10
    simp only [rustLines, hj]
    rw [← hj, hjoin, hlast]
    simp only [hynot, if_neg, if_false]
    rw [List.dropLast_concat, List.getLastD_concat]
    congr 1
    exact (List.map_congr_left fun s hs =>
      stripCr_id (h13 s (by simp [hs]))).trans (List.map_id ls)

theorem rustLines_joinNl_last_nil {ls : List (List Nat)} (hne : ls ≠ [])
    (h10 : ∀ s ∈ ls, 10 ∉ s) (h13 : ∀ s ∈ ls, 13 ∉ s) :
    rustLines (joinNl (ls ++ [[]])) = ls := by
  have hj10 : ∀ s ∈ ls ++ [[]], 10 ∉ (s : List Nat) := by
    intro s hs
    rcases List.mem_append.1 hs with hs | hs
    · exact h10 s hs
    · simp only [List.mem_singleton] at hs
      subst hs
      simp
  rcases hj : joinNl (ls ++ [[]]) with _ | ⟨b, rest⟩
  · rcases ls with _ | ⟨l, ls'⟩
    · exact absurd rfl hne
    · rw [joinNl_concat (by simp)] at hj
      simp at hj
  · rw [← hj]
    have hjoin : splitNl (joinNl (ls ++ [[]])) = ls ++ [[]] :=
      splitNl_joinNl (by simp) hj10
    have hlast : (joinNl (ls ++ [[]])).getLast? = some 10 :=
      getLast?_joinNl_nil ls hne
    simp only [rustLines, hj]
    rw [← hj, hjoin, hlast]
    simp only [if_pos]
    rw [List.dropLast_concat]
    exact (List.map_congr_left fun s hs =>
      stripCr_id (h13 s hs)).trans (List.map_id ls)



/-! ### Further `splitNl` / `joinNl` structure, and positional decomposition -/

theorem joinNl_cons_ne {ls : List (List Nat)} (h : ls ≠ []) (l : List Nat) :
    joinNl (l :: ls) = l ++ 10 :: joinNl ls := by
  cases ls with
  | nil => exact absurd rfl h
  | cons l2 ls2 => rfl

theorem joinNl_splitNl : ∀ t : List Nat, joinNl (splitNl t) = t := by
  intro t
  induction t using splitNl.induct with
  | case1 => rfl
  | case2 rest ih =>
    have h1 : splitNl (10 :: rest) = [] :: splitNl rest := by
      simp [splitNl]
    rw [h1, joinNl_cons_ne (splitNl_ne_nil rest), ih]
    rfl
  | case3 b rest hb hseg ih =>
    exact absurd hseg (splitNl_ne_nil rest)
  | case4 b rest hb seg segs hseg ih =>
    have h1 : splitNl (b :: rest) = (b :: seg) :: segs := by
      simp only [splitNl]
      rw [if_neg hb, hseg]
    rw [h1]
    rw [hseg] at ih
    cases segs with
    | nil =>
      simp only [joinNl] at ih ⊢
      rw [ih]
    | cons s2 ss2 =>
      rw [joinNl_cons_ne (by simp), List.cons_append]
      rw [joinNl_cons_ne (by simp)] at ih
      rw [ih]

theorem splitNl_len_two {t : List Nat} (h : 10 ∈ t) :
    2 ≤ (splitNl t).length := by
  induction t using splitNl.induct with
  | case1 => simp at h
  | case2 rest ih =>
    have h1 : splitNl (10 :: rest) = [] :: splitNl rest := by
      simp [splitNl]
    rw [h1]
    have := splitNl_ne_nil rest
    cases hk : splitNl rest with
    | nil => exact absurd hk this
    | cons q qs => simp
  | case3 b rest hb hseg ih =>
    exact absurd hseg (splitNl_ne_nil rest)
  | case4 b rest hb seg segs hseg ih =>
    have h1 : splitNl (b :: rest) = (b :: seg) :: segs := by
      simp only [splitNl]
      rw [if_neg hb, hseg]
    rw [h1]
    have hrest : 10 ∈ rest := by
      rcases List.mem_cons.1 h with h10 | h10
      · exact absurd h10.symm hb
      · exact h10
    have := ih hrest
    rw [hseg] at this
    simpa using this

theorem shape_two {l : List (List Nat)} (h : 2 ≤ l.length) :
    ∃ s0 mid sl, l = s0 :: (mid ++ [sl]) := by
  cases l with
  | nil => simp at h
  | cons s0 rest =>
    rcases rest.eq_nil_or_concat with hr | ⟨mid, sl, hr⟩
    · rw [hr] at h
      simp at h
    · exact ⟨s0, mid, sl, by simp [hr]⟩

/-- Any multi-line, `\r`-free byte string is the `\n`-join of its `splitNl`
segments, which are nonempty in number, newline-free and `\r`-free. -/
theorem multiline_decomp {t : List Nat} (h10 : 10 ∈ t)
    (h13 : ∀ b ∈ t, b ≠ 13) :
    ∃ s0 mid sl, t = joinNl ((s0 :: mid) ++ [sl]) ∧
      (∀ s ∈ (s0 :: mid) ++ [sl], 10 ∉ s) ∧
      (∀ s ∈ (s0 :: mid) ++ [sl], 13 ∉ s) ∧
      splitNl t = (s0 :: mid) ++ [sl] := by
  obtain ⟨s0, mid, sl, hs⟩ := shape_two (splitNl_len_two h10)
  refine ⟨s0, mid, sl, ?_, ?_, ?_, by rw [hs]; simp⟩
  · rw [List.cons_append, ← hs, joinNl_splitNl]
  · intro s hsm
    exact splitNl_mem_no_nl t s (by rw [hs]; simpa using hsm)
  · intro s hsm hb
    exact h13 13 (splitNl_mem_subset t s (by rw [hs]; simpa using hsm) 13 hb) rfl

theorem exists_decomp {c : List (List Nat)} {n : Nat} (h : n < c.length) :
    ∃ pre x post, c = pre ++ x :: post ∧ pre.length = n := by
  induction c generalizing n with
  | nil => simp at h
  | cons y c ih =>
    cases n with
    | zero => exact ⟨[], y, c, rfl, rfl⟩
    | succ n =>
      obtain ⟨pre, x, post, hc, hl⟩ := ih (by simpa using h)
      exact ⟨y :: pre, x, post, by rw [hc]; rfl, by simp [hl]⟩

theorem exists_decomp_two {c : List (List Nat)} {n n' : Nat}
    (hlt : n < n') (h : n' < c.length) :
    ∃ pre first mid toL post, c = pre ++ first :: (mid ++ toL :: post) ∧
      pre.length = n ∧ mid.length = n' - n - 1 := by
  obtain ⟨pre, first, rest, hc, hl⟩ := exists_decomp (lt_trans hlt h)
  have hr : n' - n - 1 < rest.length := by
    rw [hc] at h
    simp only [List.length_append, List.length_cons] at h
    omega
  obtain ⟨mid, toL, post, hrest, hml⟩ := exists_decomp hr
  exact ⟨pre, first, mid, toL, post, by rw [hc, hrest], hl, hml⟩

theorem lineAtD_len_succ (pre : List (List Nat)) (x y : List Nat)
    (post : List (List Nat)) :
    lineAtD (pre ++ x :: y :: post) (pre.length + 1) = y := by
  have h1 : pre ++ x :: y :: post = (pre ++ [x]) ++ y :: post := by simp
  have h2 : pre.length + 1 = (pre ++ [x]).length := by simp
  rw [h1, h2]
  exact lineAtD_len _ _ _

theorem eraseIdx_len_succ (pre : List (List Nat)) (x y : List Nat)
    (post : List (List Nat)) :
    (pre ++ x :: y :: post).eraseIdx (pre.length + 1) = pre ++ x :: post := by
  have h1 : pre ++ x :: y :: post = (pre ++ [x]) ++ y :: post := by simp
  have h2 : pre ++ x :: post = (pre ++ [x]) ++ post := by simp
  have h3 : pre.length + 1 = (pre ++ [x]).length := by simp
  rw [h1, h2, h3]
  exact eraseIdx_len_append _ _ _

theorem wfContent_iff {c : List (List Nat)} :
    wfContent c = true ↔
      c ≠ [] ∧ ∀ s ∈ c, ∀ b ∈ s, b ≠ 10 ∧ b ≠ 13 := by
  simp only [wfContent, Bool.and_eq_true, List.all_eq_true, Bool.not_eq_true]
  constructor
  · rintro ⟨h1, h2⟩
    refine ⟨by simpa [List.isEmpty_iff] using h1, fun s hs b hb => ?_⟩
    have := h2 s hs b hb
    simp only [Bool.and_eq_true, decide_eq_true_eq, ne_eq] at this
    exact this
  · rintro ⟨h1, h2⟩
    refine ⟨by simpa [List.isEmpty_iff] using h1, fun s hs b hb => ?_⟩
    have := h2 s hs b hb
    simp only [Bool.and_eq_true, decide_eq_true_eq, ne_eq]
    exact this



/-! ### Multi-line evaluation lemmas -/

/-- Multi-line deletion at a decomposed position. -/
theorem delete_range_multi (pre : List (List Nat)) (first : List Nat)
    (mid : List (List Nat)) (toL : List Nat) (post : List (List Nat))
    (k1 k2 : Nat) (hk1 : k1 ≤ first.length) (hk2 : k2 ≤ toL.length) :
    delete_range (pre ++ first :: (mid ++ toL :: post))
        ⟨⟨pre.length, k1⟩, ⟨pre.length + mid.length + 1, k2⟩⟩ =
      (pre ++ (first.take k1 ++ toL.drop k2) :: post,
        joinNl ((first.drop k1 :: mid) ++ [toL.take k2])) := by
  have hclamp1 : clamp_position (pre ++ first :: (mid ++ toL :: post))
      ⟨pre.length, k1⟩ = ⟨pre.length, k1⟩ :=
    clamp_position_decomp pre first (mid ++ toL :: post) k1 hk1
  have hassoc : pre ++ first :: (mid ++ toL :: post) =
      (pre ++ first :: mid) ++ toL :: post := by simp
  have hlen2 : pre.length + mid.length + 1 = (pre ++ first :: mid).length := by
    simp
    omega
  have hclamp2 : clamp_position (pre ++ first :: (mid ++ toL :: post))
      ⟨pre.length + mid.length + 1, k2⟩ = ⟨pre.length + mid.length + 1, k2⟩ := by
    have h := clamp_position_decomp (pre ++ first :: mid) toL post k2 hk2
    rw [← hassoc] at h
    rw [hlen2]
    exact h
  have hne : ¬(pre.length = pre.length + mid.length + 1) := by omega
  simp only [delete_range, hclamp1, hclamp2, lineAtD_len, if_neg hne]
  rw [set_len_append, drop_len_succ_append]
  have hint : (pre.length + mid.length + 1) - (pre.length + 1) = mid.length := by
    omega
  rw [hint, take_len_append, take_len_succ_append]
  have hassoc1 : pre ++ first.take k1 :: (mid ++ toL :: post) =
      (pre ++ first.take k1 :: mid) ++ toL :: post := by simp
  have hlen3 : pre.length + mid.length + 1 =
      (pre ++ first.take k1 :: mid).length := by
    simp
    omega
  rw [hassoc1, hlen3, drop_len_append]
  have hc2 : (pre ++ [first.take k1]) ++ toL :: post =
      pre ++ first.take k1 :: toL :: post := by simp
  rw [hc2, foldl_nl_eq_joinNl]
  have hif2 : pre.length + 1 < (pre ++ first.take k1 :: toL :: post).length := by
    simp
  rw [if_pos hif2, lineAtD_len_succ, eraseIdx_len_succ, lineAtD_len,
    set_len_append]
  rw [← joinNl_concat (show first.drop k1 :: mid ≠ [] by simp) (toL.take k2)]

/-- Multi-line insertion of a `\n`-join whose last segment is nonempty. -/
theorem insert_text_multi (pre : List (List Nat)) (a b : List Nat)
    (post : List (List Nat)) (s0 : List Nat) (mid : List (List Nat))
    (sl : List Nat) (h10 : ∀ s ∈ (s0 :: mid) ++ [sl], 10 ∉ s)
    (h13 : ∀ s ∈ (s0 :: mid) ++ [sl], 13 ∉ s) (hsl : sl ≠ []) :
    insert_text (pre ++ (a ++ b) :: post) ⟨pre.length, a.length⟩
        (joinNl ((s0 :: mid) ++ [sl])) =
      (pre ++ (a ++ s0) :: (mid ++ (sl ++ b) :: post),
        ⟨⟨pre.length, a.length⟩, ⟨pre.length + mid.length + 1, sl.length⟩⟩) := by
  have hclamp : clamp_position (pre ++ (a ++ b) :: post)
      ⟨pre.length, a.length⟩ = ⟨pre.length, a.length⟩ :=
    clamp_position_decomp pre (a ++ b) post a.length (by simp)
  have hin10 : 10 ∈ joinNl ((s0 :: mid) ++ [sl]) := by
    rw [List.cons_append, joinNl_cons_ne (by simp)]
    simp
  have hrust : rustLines (joinNl ((s0 :: mid) ++ [sl])) =
      s0 :: (mid ++ [sl]) := by
    rw [rustLines_joinNl_last_ne_nil hsl h10 h13]
    simp
  have hlastne : (joinNl ((s0 :: mid) ++ [sl])).getLast? ≠ some 10 := by
    rw [getLast?_joinNl_ne_nil hsl]
    intro hcon
    exact h10 sl (by simp) (List.mem_of_mem_getLast? hcon)
  simp only [insert_text, hclamp, lineAtD_len, if_pos hin10, hrust]
  rw [take_len_append, drop_len_append, if_neg hlastne]
  obtain ⟨r0, rs, hr⟩ : ∃ r0 rs, mid ++ [sl] = r0 :: rs := by
    cases mid with
    | nil => exact ⟨sl, [], rfl⟩
    | cons m ms => exact ⟨m, ms ++ [sl], rfl⟩
  rw [hr]
  dsimp only
  rw [← hr, List.dropLast_concat, List.getLastD_concat, set_len_append,
    take_len_succ_append, drop_len_succ_append]
  simp
  omega

/-- Multi-line insertion of a `\n`-join with a trailing newline (empty last
segment). -/
theorem insert_text_multi_nl (pre : List (List Nat)) (a b : List Nat)
    (post : List (List Nat)) (s0 : List Nat) (mid : List (List Nat))
    (h10 : ∀ s ∈ s0 :: mid, 10 ∉ s) (h13 : ∀ s ∈ s0 :: mid, 13 ∉ s) :
    insert_text (pre ++ (a ++ b) :: post) ⟨pre.length, a.length⟩
        (joinNl ((s0 :: mid) ++ [[]])) =
      (pre ++ (a ++ s0) :: (mid ++ b :: post),
        ⟨⟨pre.length, a.length⟩, ⟨pre.length + mid.length + 1, 0⟩⟩) := by
  have hclamp : clamp_position (pre ++ (a ++ b) :: post)
      ⟨pre.length, a.length⟩ = ⟨pre.length, a.length⟩ :=
    clamp_position_decomp pre (a ++ b) post a.length (by simp)
  have hin10 : 10 ∈ joinNl ((s0 :: mid) ++ [[]]) := by
    rw [List.cons_append, joinNl_cons_ne (by simp)]
    simp
  have hrust : rustLines (joinNl ((s0 :: mid) ++ [[]])) = s0 :: mid :=
    rustLines_joinNl_last_nil (by simp) h10 h13
  have hlast : (joinNl ((s0 :: mid) ++ [[]])).getLast? = some 10 :=
    getLast?_joinNl_nil (s0 :: mid) (by simp)
  simp only [insert_text, hclamp, lineAtD_len, if_pos hin10, hrust]
  rw [take_len_append, drop_len_append, if_pos hlast, set_len_append,
    take_len_succ_append, drop_len_succ_append]
  simp



/-- Multi-line deletion, fully decomposed form. -/
theorem delete_range_multi_dec (pre : List (List Nat)) (a d0 : List Nat)
    (mid : List (List Nat)) (sl b2 : List Nat) (post : List (List Nat)) :
    delete_range (pre ++ (a ++ d0) :: (mid ++ (sl ++ b2) :: post))
        ⟨⟨pre.length, a.length⟩, ⟨pre.length + mid.length + 1, sl.length⟩⟩ =
      (pre ++ (a ++ b2) :: post, joinNl ((d0 :: mid) ++ [sl])) := by
  rw [delete_range_multi pre (a ++ d0) mid (sl ++ b2) post a.length sl.length
    (by simp) (by simp)]
  rw [take_len_append, drop_len_append, take_len_append, drop_len_append]

/-- Multi-line deletion down to column zero of the last line. -/
theorem delete_range_multi_zero (pre : List (List Nat)) (a d0 : List Nat)
    (mid : List (List Nat)) (b2 : List Nat) (post : List (List Nat)) :
    delete_range (pre ++ (a ++ d0) :: (mid ++ b2 :: post))
        ⟨⟨pre.length, a.length⟩, ⟨pre.length + mid.length + 1, 0⟩⟩ =
      (pre ++ (a ++ b2) :: post, joinNl ((d0 :: mid) ++ [[]])) := by
  rw [delete_range_multi pre (a ++ d0) mid b2 post a.length 0
    (by simp) (Nat.zero_le _)]
  rw [take_len_append, drop_len_append, List.take_zero, List.drop_zero]

theorem undoAll_append (c : List (List Nat)) (xs ys : List Edit) :
    undoAll c (xs ++ ys) = undoAll (undoAll c ys) xs := by
  induction xs with
  | nil => rfl
  | cons e es ih =>
    simp only [List.cons_append, undoAll, List.append_eq, ih]

theorem wf_parts {c : List (List Nat)} (h : wfContent c = true) :
    ∀ s ∈ c, ∀ b ∈ s, b ≠ 10 ∧ b ≠ 13 :=
  (wfContent_iff.1 h).2



theorem lineAtD_two (pre : List (List Nat)) (first : List Nat)
    (mid : List (List Nat)) (toL : List Nat) (post : List (List Nat)) :
    lineAtD (pre ++ first :: (mid ++ toL :: post))
      (pre.length + mid.length + 1) = toL := by
  have h1 : pre ++ first :: (mid ++ toL :: post) =
      (pre ++ first :: mid) ++ toL :: post := by simp
  have h2 : pre.length + mid.length + 1 = (pre ++ first :: mid).length := by
    simp
    omega
  rw [h1, h2, lineAtD_len]

/-- One `insert_text` step is wf-preserving and undone exactly by the edit it
records. -/
theorem stepBuf_inv_ins (c : List (List Nat)) (pos : BufferPosition)
    (t : List Nat) (ci : Nat) (hwf : wfContent c = true)
    (hv : validOp c (.ins pos t ci) = true) :
    wfContent (stepBuf c (.ins pos t ci)).1 = true ∧
      undoAll (stepBuf c (.ins pos t ci)).1
        (stepBuf c (.ins pos t ci)).2.toList = c := by
  simp only [validOp, Bool.and_eq_true] at hv
  obtain ⟨hpos, ht13⟩ := hv
  have h13 : ∀ x ∈ t, x ≠ 13 := by
    intro x hx
    have := (List.all_eq_true.1 ht13) x hx
    simpa using this
  by_cases hte : t.isEmpty
  · refine ⟨?_, ?_⟩
    · simp only [stepBuf, if_pos hte]
      exact hwf
    · simp only [stepBuf, if_pos hte, Option.toList]
      rfl
  · obtain ⟨n, k⟩ := pos
    simp only [posInBounds, Bool.and_eq_true, decide_eq_true_eq] at hpos
    obtain ⟨hn, hk⟩ := hpos
    obtain ⟨pre, line, post, hc, hlen⟩ := exists_decomp hn
    subst hc
    subst hlen
    rw [lineAtD_len] at hk
    obtain ⟨a, b, hab, hal⟩ : ∃ a b : List Nat, line = a ++ b ∧ a.length = k :=
      ⟨line.take k, line.drop k, (List.take_append_drop k line).symm,
        by simp [hk]⟩
    subst hab
    subst hal
    have hp := wf_parts hwf
    by_cases h10 : 10 ∈ t
    · obtain ⟨s0, mid, sl, hT, h10s, h13s, hsplit⟩ := multiline_decomp h10 h13
      subst hT
      have hseg : ∀ s ∈ (s0 :: mid) ++ [sl], ∀ x ∈ s, x ≠ 10 ∧ x ≠ 13 :=
        fun s hs x hx =>
          ⟨fun h => h10s s hs (h ▸ hx), fun h => h13s s hs (h ▸ hx)⟩
      by_cases hsl : sl = []
      · subst hsl
        have hins := insert_text_multi_nl pre a b post s0 mid
          (fun s hs => h10s s (List.mem_append_left _ hs))
          (fun s hs => h13s s (List.mem_append_left _ hs))
        have hstep : stepBuf (pre ++ (a ++ b) :: post)
            (.ins ⟨pre.length, a.length⟩ (joinNl ((s0 :: mid) ++ [[]])) ci) =
            (pre ++ (a ++ s0) :: (mid ++ b :: post),
              some ⟨.Insert, ⟨⟨pre.length, a.length⟩,
                ⟨pre.length + mid.length + 1, 0⟩⟩,
                joinNl ((s0 :: mid) ++ [[]]), min ci 255⟩) := by
          simp only [stepBuf, if_neg hte]
          rw [hins]
        rw [hstep]
        refine ⟨?_, ?_⟩
        · rw [wfContent_iff]
          refine ⟨by simp, ?_⟩
          intro s hs x hx
          simp only [List.mem_append, List.mem_cons] at hs
          rcases hs with hs | hs | hs | hs | hs
          · exact hp s (List.mem_append.2 (Or.inl hs)) x hx
          · rcases List.mem_append.1 (hs ▸ hx) with hx' | hx'
            · exact hp (a ++ b) (by simp) x (List.mem_append_left _ hx')
            · exact hseg s0 (by simp) x hx'
          · exact hseg s (List.mem_append_left _ (List.mem_cons_of_mem _ hs)) x hx
          · exact hp (a ++ b) (by simp) x (List.mem_append_right _ (hs ▸ hx))
          · exact hp s (by simp [hs]) x hx
        · simp only [Option.toList, undoAll, undoEdit]
          rw [delete_range_multi_zero pre a s0 mid b post]
      · have hins := insert_text_multi pre a b post s0 mid sl h10s h13s hsl
        have hstep : stepBuf (pre ++ (a ++ b) :: post)
            (.ins ⟨pre.length, a.length⟩ (joinNl ((s0 :: mid) ++ [sl])) ci) =
            (pre ++ (a ++ s0) :: (mid ++ (sl ++ b) :: post),
              some ⟨.Insert, ⟨⟨pre.length, a.length⟩,
                ⟨pre.length + mid.length + 1, sl.length⟩⟩,
                joinNl ((s0 :: mid) ++ [sl]), min ci 255⟩) := by
          simp only [stepBuf, if_neg hte]
          rw [hins]
        rw [hstep]
        refine ⟨?_, ?_⟩
        · rw [wfContent_iff]
          refine ⟨by simp, ?_⟩
          intro s hs x hx
          simp only [List.mem_append, List.mem_cons] at hs
          rcases hs with hs | hs | hs | hs | hs
          · exact hp s (List.mem_append.2 (Or.inl hs)) x hx
          · rcases List.mem_append.1 (hs ▸ hx) with hx' | hx'
            · exact hp (a ++ b) (by simp) x (List.mem_append_left _ hx')
            · exact hseg s0 (by simp) x hx'
          · exact hseg s (List.mem_append_left _ (List.mem_cons_of_mem _ hs)) x hx
          · rcases List.mem_append.1 (hs ▸ hx) with hx' | hx'
            · exact hseg sl (by simp) x hx'
            · exact hp (a ++ b) (by simp) x (List.mem_append_right _ hx')
          · exact hp s (by simp [hs]) x hx
        · simp only [Option.toList, undoAll, undoEdit]
          rw [delete_range_multi_dec pre a s0 mid sl b post]
    · have hins := insert_text_single pre a b post t h10
      have hstep : stepBuf (pre ++ (a ++ b) :: post)
          (.ins ⟨pre.length, a.length⟩ t ci) =
          (pre ++ (a ++ t ++ b) :: post,
            some ⟨.Insert, ⟨⟨pre.length, a.length⟩,
              ⟨pre.length, a.length + t.length⟩⟩, t, min ci 255⟩) := by
        simp only [stepBuf, if_neg hte]
        rw [hins]
      rw [hstep]
      refine ⟨?_, ?_⟩
      · rw [wfContent_iff]
        refine ⟨by simp, ?_⟩
        intro s hs x hx
        simp only [List.mem_append, List.mem_cons] at hs
        rcases hs with hs | hs | hs
        · exact hp s (List.mem_append.2 (Or.inl hs)) x hx
        · rcases List.mem_append.1 (hs ▸ hx) with hx' | hx'
          · rcases List.mem_append.1 hx' with hx2 | hx2
            · exact hp (a ++ b) (by simp) x (List.mem_append_left _ hx2)
            · exact ⟨fun h => h10 (h ▸ hx2), fun h => h13 x hx2 h⟩
          · exact hp (a ++ b) (by simp) x (List.mem_append_right _ hx')
        · exact hp s (by simp [hs]) x hx
      · simp only [Option.toList, undoAll, undoEdit]
        rw [delete_range_single pre a t b post]



/-- One `delete_range` step is wf-preserving and undone exactly by the edit it
records. -/
theorem stepBuf_inv_del (c : List (List Nat)) (r : BufferRangeP) (ci : Nat)
    (hwf : wfContent c = true) (hv : validOp c (.del r ci) = true) :
    wfContent (stepBuf c (.del r ci)).1 = true ∧
      undoAll (stepBuf c (.del r ci)).1
        (stepBuf c (.del r ci)).2.toList = c := by
  simp only [validOp, Bool.and_eq_true] at hv
  obtain ⟨⟨hf, ht⟩, hle⟩ := hv
  by_cases hr : r.from_ = r.to_
  · refine ⟨?_, ?_⟩
    · simp only [stepBuf, if_pos hr]
      exact hwf
    · simp only [stepBuf, if_pos hr, Option.toList]
      rfl
  · obtain ⟨⟨n1, k1⟩, ⟨n2, k2⟩⟩ := r
    simp only [posLe, Bool.or_eq_true, Bool.and_eq_true, decide_eq_true_eq] at hle
    simp only [posInBounds, Bool.and_eq_true, decide_eq_true_eq] at hf ht
    rcases hle with hlt | ⟨heq, hk12⟩
    · -- multi-line range
      obtain ⟨pre, first, mid, toL, post, hc, hl1, hlm⟩ :=
        exists_decomp_two hlt ht.1
      subst hc
      subst hl1
      have hn2 : n2 = pre.length + mid.length + 1 := by omega
      subst hn2
      have hk1 : k1 ≤ first.length := by
        have := hf.2
        rwa [lineAtD_len] at this
      have hk2 : k2 ≤ toL.length := by
        have := ht.2
        rwa [lineAtD_two] at this
      obtain ⟨a, d0, had, hal⟩ : ∃ a d0 : List Nat,
          first = a ++ d0 ∧ a.length = k1 :=
        ⟨first.take k1, first.drop k1, (List.take_append_drop k1 first).symm,
          by simp [hk1]⟩
      subst had
      subst hal
      obtain ⟨sl, b2, htl, hsll⟩ : ∃ sl b2 : List Nat,
          toL = sl ++ b2 ∧ sl.length = k2 :=
        ⟨toL.take k2, toL.drop k2, (List.take_append_drop k2 toL).symm,
          by simp [hk2]⟩
      subst htl
      subst hsll
      have hp := wf_parts hwf
      have hstep : stepBuf (pre ++ (a ++ d0) :: (mid ++ (sl ++ b2) :: post))
          (.del ⟨⟨pre.length, a.length⟩,
            ⟨pre.length + mid.length + 1, sl.length⟩⟩ ci) =
          (pre ++ (a ++ b2) :: post,
            some ⟨.Delete, ⟨⟨pre.length, a.length⟩,
              ⟨pre.length + mid.length + 1, sl.length⟩⟩,
              joinNl ((d0 :: mid) ++ [sl]), min ci 255⟩) := by
        simp only [stepBuf, if_neg hr]
        rw [delete_range_multi_dec pre a d0 mid sl b2 post]
      rw [hstep]
      have hseg10 : ∀ s ∈ (d0 :: mid) ++ [sl], 10 ∉ s := by
        intro s hs hmem
        simp only [List.mem_append, List.mem_cons, List.mem_singleton] at hs
        rcases hs with (h1 | hs) | h2 | hnil
        · exact (hp (a ++ d0) (by simp) 10 (by simp [h1 ▸ hmem])).1 rfl
        · exact (hp s (by simp [hs]) 10 hmem).1 rfl
        · exact (hp (sl ++ b2) (by simp) 10 (by simp [h2 ▸ hmem])).1 rfl
        · simp at hnil
      have hseg13 : ∀ s ∈ (d0 :: mid) ++ [sl], 13 ∉ s := by
        intro s hs hmem
        simp only [List.mem_append, List.mem_cons, List.mem_singleton] at hs
        rcases hs with (h1 | hs) | h2 | hnil
        · exact (hp (a ++ d0) (by simp) 13 (by simp [h1 ▸ hmem])).2 rfl
        · exact (hp s (by simp [hs]) 13 hmem).2 rfl
        · exact (hp (sl ++ b2) (by simp) 13 (by simp [h2 ▸ hmem])).2 rfl
        · simp at hnil
      refine ⟨?_, ?_⟩
      · rw [wfContent_iff]
        refine ⟨by simp, ?_⟩
        intro s hs x hx
        simp only [List.mem_append, List.mem_cons] at hs
        rcases hs with hs | hs | hs
        · exact hp s (List.mem_append.2 (Or.inl hs)) x hx
        · rcases List.mem_append.1 (hs ▸ hx) with hx' | hx'
          · exact hp (a ++ d0) (by simp) x (List.mem_append_left _ hx')
          · exact hp (sl ++ b2) (by simp) x (List.mem_append_right _ hx')
        · exact hp s (by simp [hs]) x hx
      · simp only [Option.toList, undoAll, undoEdit]
        by_cases hsl0 : sl = []
        · subst hsl0
          rw [insert_text_multi_nl pre a b2 post d0 mid
            (fun s hs => hseg10 s (List.mem_append_left _ hs))
            (fun s hs => hseg13 s (List.mem_append_left _ hs))]
          simp
        · rw [insert_text_multi pre a b2 post d0 mid sl hseg10 hseg13 hsl0]
    · -- single-line range
      subst heq
      obtain ⟨pre, line, post, hc, hlen⟩ := exists_decomp hf.1
      subst hc
      subst hlen
      have hk2 : k2 ≤ line.length := by
        have := ht.2
        rwa [lineAtD_len] at this
      obtain ⟨a, m, b, habm, hal, ham⟩ : ∃ a m b : List Nat,
          line = a ++ m ++ b ∧ a.length = k1 ∧ a.length + m.length = k2 := by
        refine ⟨line.take k1, (line.drop k1).take (k2 - k1), line.drop k2,
          ?_, by simp; omega, by simp; omega⟩
        have h1 : line.take k1 ++ (line.drop k1).take (k2 - k1) =
            line.take k2 := by
          rw [← List.take_add]
          congr 1
          omega
        rw [h1, List.take_append_drop]
      subst habm
      subst hal
      subst ham
      have hp := wf_parts hwf
      have hstep : stepBuf (pre ++ (a ++ m ++ b) :: post)
          (.del ⟨⟨pre.length, a.length⟩,
            ⟨pre.length, a.length + m.length⟩⟩ ci) =
          (pre ++ (a ++ b) :: post,
            some ⟨.Delete, ⟨⟨pre.length, a.length⟩,
              ⟨pre.length, a.length + m.length⟩⟩, m, min ci 255⟩) := by
        simp only [stepBuf, if_neg hr]
        rw [delete_range_single pre a m b post]
      rw [hstep]
      refine ⟨?_, ?_⟩
      · rw [wfContent_iff]
        refine ⟨by simp, ?_⟩
        intro s hs x hx
        simp only [List.mem_append, List.mem_cons] at hs
        rcases hs with hs | hs | hs
        · exact hp s (List.mem_append.2 (Or.inl hs)) x hx
        · rcases List.mem_append.1 (hs ▸ hx) with hx' | hx'
          · exact hp (a ++ m ++ b) (by simp) x (by simp [hx'])
          · exact hp (a ++ m ++ b) (by simp) x (by simp [hx'])
        · exact hp s (by simp [hs]) x hx
      · simp only [Option.toList, undoAll, undoEdit]
        have hm10 : 10 ∉ m :=
          fun hmem => (hp (a ++ m ++ b) (by simp) 10 (by simp [hmem])).1 rfl
        rw [insert_text_single pre a b post m hm10]



/-- **C3** (corrected).  For well-formed content (at least one line, no `\n`
or `\r` byte inside a line) and a sequence of `insert_text` / `delete_range`
operations whose positions are in bounds and whose ranges are ordered, and
whose inserted texts carry no `\r`, undoing every recorded edit newest-first
restores the content byte-identically.  The original claim's unrestricted
form is refuted by `undo_roundtrip_counterexample` below: an out-of-bounds
range is clamped when applied but recorded verbatim, and undo re-clamps it
against the *new* content. -/
theorem undo_all_restores (c : List (List Nat)) (ops : List BufOp)
    (hwf : wfContent c = true) (hv : validBufOps c ops = true) :
    undoAll (runBuf c ops).1 (runBuf c ops).2 = c := by
  induction ops generalizing c with
  | nil => rfl
  | cons op ops ih =>
    simp only [validBufOps, Bool.and_eq_true] at hv
    obtain ⟨hop, hrest⟩ := hv
    rcases hsb : stepBuf c op with ⟨c1, re⟩
    have h : wfContent (stepBuf c op).1 = true ∧
        undoAll (stepBuf c op).1 (stepBuf c op).2.toList = c := by
      cases op with
      | ins pos t ci => exact stepBuf_inv_ins c pos t ci hwf hop
      | del r ci => exact stepBuf_inv_del c r ci hwf hop
    rw [hsb] at h hrest
    have hwf1 : wfContent c1 = true := h.1
    have hundo : undoAll c1 re.toList = c := h.2
    have hv1 : validBufOps c1 ops = true := hrest
    rcases hrb : runBuf c1 ops with ⟨cF, recs⟩
    have hih := ih c1 hwf1 hv1
    rw [hrb] at hih
    simp only [runBuf, hsb, hrb]
    rw [undoAll_append, hih]
    exact hundo

/-- **C3** counterexample to the unrestricted claim: deleting with the
out-of-bounds range (0,5)-(1,1) from `["ab","cd"]` clamps the start to
(0,2), deletes the line break and the `c`, and records the *original* range;
undo re-inserts `"\nc"` at (0,5), which now clamps to (0,3), yielding
`["abd", "c"]` — not the original `["ab", "cd"]`. -/
theorem undo_roundtrip_counterexample :
    runBuf [[97, 98], [99, 100]] [.del ⟨⟨0, 5⟩, ⟨1, 1⟩⟩ 0] =
      ([[97, 98, 100]],
        [⟨.Delete, ⟨⟨0, 5⟩, ⟨1, 1⟩⟩, [10, 99], 0⟩]) ∧
    undoAll [[97, 98, 100]] [⟨.Delete, ⟨⟨0, 5⟩, ⟨1, 1⟩⟩, [10, 99], 0⟩] =
      [[97, 98, 100], [99]] ∧
    [[97, 98, 100], [99]] ≠ [[97, 98], [99, 100]] := by
  refine ⟨by decide, by decide, by decide⟩

/-- Witness for C3 on the spec's own undo scenario: content
`multi\nline\ncontent`, delete (0,1)-(1,3), undo restores the content. -/
theorem undo_all_restores_witness :
    wfContent [[109, 117, 108, 116, 105], [108, 105, 110, 101],
      [99, 111, 110, 116, 101, 110, 116]] = true ∧
    validBufOps [[109, 117, 108, 116, 105], [108, 105, 110, 101],
      [99, 111, 110, 116, 101, 110, 116]] [.del ⟨⟨0, 1⟩, ⟨1, 3⟩⟩ 0] = true ∧
    undoAll
      (runBuf [[109, 117, 108, 116, 105], [108, 105, 110, 101],
        [99, 111, 110, 116, 101, 110, 116]] [.del ⟨⟨0, 1⟩, ⟨1, 3⟩⟩ 0]).1
      (runBuf [[109, 117, 108, 116, 105], [108, 105, 110, 101],
        [99, 111, 110, 116, 101, 110, 116]] [.del ⟨⟨0, 1⟩, ⟨1, 3⟩⟩ 0]).2 =
      [[109, 117, 108, 116, 105], [108, 105, 110, 101],
        [99, 111, 110, 116, 101, 110, 116]] :=
  ⟨by decide, by decide,
    undo_all_restores _ _ (by decide) (by decide)⟩






/-! ### `ResidualStrBytes` support lemmas -/

theorem boundary_false_iff {x : Nat} :
    is_char_boundary x = false ↔ 128 ≤ x ∧ x < 192 := by
  simp [is_char_boundary]

theorem boundary_true_iff {x : Nat} :
    is_char_boundary x = true ↔ x < 128 ∨ 192 ≤ x := by
  simp [is_char_boundary]

theorem isCont_iff {x : Nat} : isCont x = true ↔ 128 ≤ x ∧ x < 192 := by
  simp [isCont]

theorem charEnc_shape {c : List Nat} (h : isCharEnc c = true) :
    ∃ b conts, c = b :: conts ∧ is_char_boundary b = true ∧
      (∀ x ∈ conts, is_char_boundary x = false) ∧ c.length ≤ 4 := by
  rcases c with _ | ⟨b, _ | ⟨c1, _ | ⟨c2, _ | ⟨c3, _ | ⟨c4, c5⟩⟩⟩⟩⟩
  · simp [isCharEnc] at h
  · simp only [isCharEnc, decide_eq_true_eq] at h
    exact ⟨b, [], rfl, boundary_true_iff.2 (Or.inl (by omega)), by simp, by simp⟩
  · simp only [isCharEnc, Bool.and_eq_true, decide_eq_true_eq, isCont_iff] at h
    refine ⟨b, [c1], rfl, boundary_true_iff.2 (Or.inr (by omega)), ?_, by simp⟩
    intro x hx
    simp only [List.mem_singleton] at hx
    subst hx
    exact boundary_false_iff.2 (by omega)
  · simp only [isCharEnc, Bool.and_eq_true, decide_eq_true_eq, isCont_iff] at h
    obtain ⟨⟨hb, hc1⟩, hc2⟩ := h
    have hc1' : 128 ≤ c1 ∧ c1 < 192 := by
      by_cases h224 : b = 224
      · simp [h224] at hc1
        omega
      · by_cases h237 : b = 237
        · simp [h237] at hc1
          omega
        · simp only [if_neg h224, if_neg h237, isCont_iff] at hc1
          exact hc1
    refine ⟨b, [c1, c2], rfl, boundary_true_iff.2 (Or.inr (by omega)), ?_,
      by simp⟩
    intro x hx
    simp only [List.mem_cons, List.mem_singleton] at hx
    rcases hx with rfl | rfl | hx
    · exact boundary_false_iff.2 (by omega)
    · exact boundary_false_iff.2 (by omega)
    · simp at hx
  · simp only [isCharEnc, Bool.and_eq_true, decide_eq_true_eq, isCont_iff] at h
    obtain ⟨⟨⟨hb, hc1⟩, hc2⟩, hc3⟩ := h
    have hc1' : 128 ≤ c1 ∧ c1 < 192 := by
      by_cases h240 : b = 240
      · simp [h240] at hc1
        omega
      · by_cases h244 : b = 244
        · simp [h244] at hc1
          omega
        · simp only [if_neg h240, if_neg h244, isCont_iff] at hc1
          exact hc1
    refine ⟨b, [c1, c2, c3], rfl, boundary_true_iff.2 (Or.inr (by omega)), ?_,
      by simp⟩
    intro x hx
    simp only [List.mem_cons, List.mem_singleton] at hx
    rcases hx with rfl | rfl | rfl | hx
    · exact boundary_false_iff.2 (by omega)
    · exact boundary_false_iff.2 (by omega)
    · exact boundary_false_iff.2 (by omega)
    · simp at hx
  · simp [isCharEnc] at h

theorem charLenOf_pos (b : Nat) : 1 ≤ charLenOf b := by
  simp only [charLenOf]
  split
  · omega
  · split
    · omega
    · split <;> omega

theorem validUtf8Go_nil (f : Nat) : validUtf8Go f [] = true := by
  cases f <;> rfl

theorem validUtf8Go_congr : ∀ f1 : Nat, ∀ f2 : Nat, ∀ s : List Nat,
    s.length ≤ f1 → s.length ≤ f2 → validUtf8Go f1 s = validUtf8Go f2 s := by
  intro f1
  induction f1 with
  | zero =>
    intro f2 s h1 h2
    cases s with
    | nil => rw [validUtf8Go_nil, validUtf8Go_nil]
    | cons b rest => simp at h1
  | succ f1 ih =>
    intro f2 s h1 h2
    cases s with
    | nil => rw [validUtf8Go_nil, validUtf8Go_nil]
    | cons b rest =>
      cases f2 with
      | zero => simp at h2
      | succ f2 =>
        simp only [validUtf8Go]
        congr 1
        apply ih
        · have := charLenOf_pos b
          simp only [List.length_drop, List.length_cons] at *
          omega
        · have := charLenOf_pos b
          simp only [List.length_drop, List.length_cons] at *
          omega

theorem charEnc2_bounds {b c1 : Nat} (h : isCharEnc [b, c1] = true) :
    194 ≤ b ∧ b ≤ 223 := by
  simp only [isCharEnc, Bool.and_eq_true, decide_eq_true_eq] at h
  exact h.1

theorem charEnc3_bounds {b c1 c2 : Nat} (h : isCharEnc [b, c1, c2] = true) :
    224 ≤ b ∧ b ≤ 239 := by
  simp only [isCharEnc, Bool.and_eq_true, decide_eq_true_eq] at h
  exact h.1.1

theorem charEnc4_bounds {b c1 c2 c3 : Nat}
    (h : isCharEnc [b, c1, c2, c3] = true) : 240 ≤ b ∧ b ≤ 244 := by
  simp only [isCharEnc, Bool.and_eq_true, decide_eq_true_eq] at h
  exact h.1.1.1

theorem charEnc_charLenOf {c : List Nat} (h : isCharEnc c = true) :
    ∃ b rest, c = b :: rest ∧ charLenOf b = c.length := by
  rcases c with _ | ⟨b, _ | ⟨c1, _ | ⟨c2, _ | ⟨c3, _ | ⟨c4, c5⟩⟩⟩⟩⟩
  · simp [isCharEnc] at h
  · refine ⟨b, [], rfl, ?_⟩
    simp only [isCharEnc, decide_eq_true_eq] at h
    simp [charLenOf, h]
  · refine ⟨b, [c1], rfl, ?_⟩
    have hb := charEnc2_bounds h
    simp only [charLenOf, List.length_cons, List.length_nil]
    rw [if_neg (by omega), if_pos (by omega : b ≤ 223)]
  · refine ⟨b, [c1, c2], rfl, ?_⟩
    have hb := charEnc3_bounds h
    simp only [charLenOf, List.length_cons, List.length_nil]
    rw [if_neg (by omega), if_neg (by omega : ¬b ≤ 223),
      if_pos (by omega : b ≤ 239)]
  · refine ⟨b, [c1, c2, c3], rfl, ?_⟩
    have hb := charEnc4_bounds h
    simp only [charLenOf, List.length_cons, List.length_nil]
    rw [if_neg (by omega), if_neg (by omega : ¬b ≤ 223),
      if_neg (by omega : ¬b ≤ 239)]
  · simp [isCharEnc] at h

theorem validUtf8_append_char {c u : List Nat} (hc : isCharEnc c = true)
    (hu : validUtf8 u = true) : validUtf8 (c ++ u) = true := by
  obtain ⟨b, brest, hcb, hlen⟩ := charEnc_charLenOf hc
  subst hcb
  simp only [validUtf8, List.cons_append, List.length_append, List.length_cons]
  simp only [validUtf8Go]
  have htake : (b :: (brest ++ u)).take (charLenOf b) = b :: brest := by
    rw [hlen]
    have : b :: (brest ++ u) = (b :: brest) ++ u := rfl
    rw [this, List.take_left]
  have hdrop : (b :: (brest ++ u)).drop (charLenOf b) = u := by
    rw [hlen]
    have : b :: (brest ++ u) = (b :: brest) ++ u := rfl
    rw [this, List.drop_left]
  rw [htake, hdrop, hc]
  simp only [Bool.true_and]
  rw [validUtf8Go_congr (brest.length + u.length) u.length u (by omega) le_rfl]
  exact hu

theorem joinAll_nil : joinAll [] = [] := rfl

theorem joinAll_cons (w : List Nat) (ws : List (List Nat)) :
    joinAll (w :: ws) = w ++ joinAll ws := rfl

theorem joinAll_append (ws cs : List (List Nat)) :
    joinAll (ws ++ cs) = joinAll ws ++ joinAll cs := by
  induction ws with
  | nil => rfl
  | cons w ws ih => simp [joinAll_cons, ih]

theorem validUtf8_joinAll {ws : List (List Nat)}
    (h : ∀ c ∈ ws, isCharEnc c = true) : validUtf8 (joinAll ws) = true := by
  induction ws with
  | nil => rfl
  | cons w ws ih =>
    rw [joinAll_cons]
    exact validUtf8_append_char (h w (by simp))
      (ih fun c hc => h c (List.mem_cons_of_mem _ hc))

theorem strOrEmpty_valid {s : List Nat} (h : validUtf8 s = true) :
    strOrEmpty s = s := by
  simp [strOrEmpty, h]

theorem charEnc_ne_nil {c : List Nat} (h : isCharEnc c = true) : c ≠ [] := by
  intro hc
  subst hc
  simp [isCharEnc] at h

theorem validUtf8_char {c : List Nat} (h : isCharEnc c = true) :
    validUtf8 c = true := by
  have hnil : validUtf8 [] = true := rfl
  have := validUtf8_append_char h hnil
  simpa using this



/-- A byte string that may legally follow the residue-absorbing first loop:
empty, or starting at a char boundary. -/
def headOK (u : List Nat) : Prop :=
  u = [] ∨ is_char_boundary (u.headD 0) = true

theorem headOK_joinAll {ws : List (List Nat)}
    (h : ∀ c ∈ ws, isCharEnc c = true) {y : List Nat} (hy : headOK y) :
    headOK (joinAll ws ++ y) := by
  induction ws with
  | nil => simpa [joinAll_nil] using hy
  | cons w ws ih =>
    obtain ⟨b, conts, hw, hbb, _, _⟩ := charEnc_shape (h w (by simp))
    rw [joinAll_cons, hw]
    right
    simp [hbb]

theorem stateOK_valid {res pend : List Nat} (h : StateOK res pend) :
    validUtf8 (res ++ pend) = true := by
  rcases h with ⟨rfl, hres⟩ | ⟨_, _, henc⟩
  · rcases hres with rfl | henc
    · rfl
    · simpa using validUtf8_char henc
  · exact validUtf8_char henc

theorem stateOK_facts {res pend : List Nat} (h : StateOK res pend) :
    (∀ x ∈ pend, is_char_boundary x = false) ∧
      res.length + pend.length ≤ 4 := by
  rcases h with ⟨rfl, hres⟩ | ⟨hpe, hrne, henc⟩
  · refine ⟨by simp, ?_⟩
    rcases hres with rfl | henc
    · simp
    · obtain ⟨b, conts, hsh, _, _, hl⟩ := charEnc_shape henc
      simp only [List.length_nil]
      omega
  · obtain ⟨b, conts, hsh, _, hcf, hl⟩ := charEnc_shape henc
    constructor
    · intro x hx
      apply hcf
      rcases res with _ | ⟨rb, rrest⟩
      · exact absurd rfl hrne
      · simp only [List.cons_append, List.cons.injEq] at hsh
        rw [← hsh.2]
        exact List.mem_append_right _ hx
    · have hlen : (res ++ pend).length ≤ 4 := hsh ▸ hl
      simpa using hlen

theorem phase1_eval : ∀ (conts res rest : List Nat),
    (∀ x ∈ conts, is_char_boundary x = false) →
    res.length + conts.length ≤ 4 →
    headOK rest →
    phase1 res (conts ++ rest) = (res ++ conts, rest) := by
  intro conts
  induction conts with
  | nil =>
    intro res rest _ _ hrest
    rcases hrest with rfl | hb
    · simp [phase1]
    · cases rest with
      | nil => simp [phase1]
      | cons b r =>
        simp only [List.headD_cons] at hb
        simp [phase1, hb]
  | cons x conts ih =>
    intro res rest hc hlen hrest
    have hx := hc x (by simp)
    have h4 : ¬(res.length = 4) := by
      simp only [List.length_cons] at hlen
      omega
    have hstep : phase1 res ((x :: conts) ++ rest) =
        phase1 (res ++ [x]) (conts ++ rest) := by
      simp [phase1, hx, h4]
    rw [hstep, ih (res ++ [x]) rest
      (fun y hy => hc y (List.mem_cons_of_mem _ hy))
      (by simp only [List.length_append, List.length_cons,
        List.length_nil] at *; omega) hrest]
    simp

theorem phase2_go_append (v extra : List Nat) : ∀ n, n ≤ v.length →
    phase2_go (v ++ extra) n = phase2_go v n := by
  intro n
  induction n with
  | zero => intro _; rfl
  | succ n ih =>
    intro h
    simp only [phase2_go]
    have hg : (v ++ extra).getD n 0 = v.getD n 0 := by
      rcases Nat.lt_or_ge n v.length with hlt | hge
      · simp [List.getD, List.getElem?_append_left hlt]
      · omega
    rw [hg, ih (by omega)]

theorem phase2_go_eval (u : List Nat) (b : Nat)
    (hb : is_char_boundary b = true) :
    ∀ conts : List Nat, (∀ x ∈ conts, is_char_boundary x = false) →
    phase2_go (u ++ b :: conts) (u.length + 1 + conts.length) = u.length := by
  intro conts
  induction conts using List.reverseRecOn with
  | nil =>
    intro _
    simp only [List.length_nil, Nat.add_zero, phase2_go]
    rw [getD_len_append u b [] 0, hb]
    simp
  | append_singleton conts c ih =>
    intro hc
    have hassoc : u ++ b :: (conts ++ [c]) = (u ++ b :: conts) ++ [c] := by
      simp
    have hl2 : u.length + 1 + conts.length = (u ++ b :: conts).length := by
      simp
      omega
    have hlen : u.length + 1 + (conts ++ [c]).length =
        (u.length + 1 + conts.length) + 1 := by
      simp
      omega
    rw [hlen]
    simp only [phase2_go]
    have hg : (u ++ b :: (conts ++ [c])).getD (u.length + 1 + conts.length) 0 =
        c := by
      rw [hassoc, hl2]
      exact getD_len_append _ _ _ _
    rw [hg, hc c (by simp)]
    rw [if_neg (by simp)]
    rw [hassoc, phase2_go_append _ _ _ (le_of_eq hl2)]
    exact ih (fun x hx => hc x (by simp [hx]))



/-- Phase-1 absorption under the state invariant, for any legally shaped
remainder. -/
theorem phase1_state (res pend rest : List Nat) (hso : StateOK res pend)
    (hrest : headOK rest) :
    phase1 res (pend ++ rest) = (res ++ pend, rest) := by
  obtain ⟨hcf, hlen⟩ := stateOK_facts hso
  exact phase1_eval pend res rest hcf hlen hrest

/-- `receive_bytes` on a boundary-closed chunk: the residue plus pending
suffix is flushed as `before`, all whole characters but the last are
`after`, and the last character is retained. -/
theorem receive_bound (res pend : List Nat) (ws : List (List Nat))
    (hso : StateOK res pend)
    (hws : ∀ c ∈ ws, isCharEnc c = true) :
    receive_bytes res (pend ++ joinAll ws) =
      (ws.getLastD [], res ++ pend, joinAll ws.dropLast) := by
  have hp1 : phase1 res (pend ++ joinAll ws) = (res ++ pend, joinAll ws) := by
    apply phase1_state res pend _ hso
    have := headOK_joinAll hws (Or.inl rfl)
    simpa using this
  have hbef : strOrEmpty (res ++ pend) = res ++ pend :=
    strOrEmpty_valid (stateOK_valid hso)
  have hemp : strOrEmpty [] = [] := rfl
  rcases ws.eq_nil_or_concat with rfl | ⟨ws2, w, hws2⟩
  · simp only [receive_bytes, hp1]
    simp [phase2_go, joinAll_nil, hbef, hemp]
  · rw [List.concat_eq_append] at hws2
    subst hws2
    obtain ⟨b, conts, hwshape, hbb, hcc, hlen4⟩ :=
      charEnc_shape (hws w (by simp))
    have hjoin : joinAll (ws2 ++ [w]) = joinAll ws2 ++ (b :: conts) := by
      rw [joinAll_append, hwshape]
      simp [joinAll_cons, joinAll_nil]
    have hlen : (joinAll ws2 ++ (b :: conts)).length =
        (joinAll ws2).length + 1 + conts.length := by
      simp
      omega
    have hk := phase2_go_eval (joinAll ws2) b hbb conts hcc
    simp only [receive_bytes, hp1]
    rw [hjoin, hlen, hk, take_len_append, drop_len_append]
    have hrlen : ¬(4 < (b :: conts).length) := by
      rw [hwshape] at hlen4
      simp only [List.length_cons] at hlen4 ⊢
      omega
    rw [if_neg hrlen]
    have hafter : strOrEmpty (joinAll ws2) = joinAll ws2 :=
      strOrEmpty_valid (validUtf8_joinAll fun c hc => hws c (by simp [hc]))
    rw [hbef, hafter, List.getLastD_concat, List.dropLast_concat, hwshape]

/-- `receive_bytes` on a chunk closed by a nonempty proper character prefix
`h`: the flush and all whole characters are emitted and `h` is retained. -/
theorem receive_split (res pend : List Nat) (ws : List (List Nat))
    (h t : List Nat) (hso : StateOK res pend)
    (hws : ∀ c ∈ ws, isCharEnc c = true)
    (hht : isCharEnc (h ++ t) = true) (hh : h ≠ []) :
    receive_bytes res (pend ++ (joinAll ws ++ h)) =
      (h, res ++ pend, joinAll ws) := by
  obtain ⟨b, conts, hsh, hbb, hcf, hl4⟩ := charEnc_shape hht
  rcases h with _ | ⟨hb0, hrest⟩
  · exact absurd rfl hh
  · simp only [List.cons_append, List.cons.injEq] at hsh
    obtain ⟨hbe, htail⟩ := hsh
    have hbb0 : is_char_boundary hb0 = true := by
      rw [hbe]
      exact hbb
    have hcont : ∀ x ∈ hrest, is_char_boundary x = false := by
      intro x hx
      exact hcf x (by rw [← htail]; exact List.mem_append_left _ hx)
    have hp1 : phase1 res (pend ++ (joinAll ws ++ hb0 :: hrest)) =
        (res ++ pend, joinAll ws ++ hb0 :: hrest) := by
      apply phase1_state res pend _ hso
      exact headOK_joinAll hws (Or.inr (by simpa using hbb0))
    have hlen : (joinAll ws ++ hb0 :: hrest).length =
        (joinAll ws).length + 1 + hrest.length := by
      simp
      omega
    have hk := phase2_go_eval (joinAll ws) hb0 hbb0 hrest hcont
    simp only [receive_bytes, hp1]
    rw [hlen, hk, take_len_append, drop_len_append]
    have hrlen : ¬(4 < (hb0 :: hrest).length) := by
      simp only [List.cons_append, List.length_cons, List.length_append]
        at hl4 ⊢
      omega
    rw [if_neg hrlen]
    have hbef : strOrEmpty (res ++ pend) = res ++ pend :=
      strOrEmpty_valid (stateOK_valid hso)
    have hafter : strOrEmpty (joinAll ws) = joinAll ws :=
      strOrEmpty_valid (validUtf8_joinAll hws)
    rw [hbef, hafter]



theorem receive_nil (res : List Nat) (hso : StateOK res []) :
    receive_bytes res [] = ([], res, []) := by
  have h := receive_bound res [] [] hso (by simp)
  simpa [joinAll_nil] using h

theorem joinAll_dropLast_getLastD (ws : List (List Nat)) :
    joinAll ws.dropLast ++ ws.getLastD [] = joinAll ws := by
  rcases ws.eq_nil_or_concat with rfl | ⟨ws2, w, hc⟩
  · rfl
  · rw [List.concat_eq_append] at hc
    subst hc
    rw [List.dropLast_concat, List.getLastD_concat, joinAll_append]
    simp [joinAll_cons, joinAll_nil]

theorem stateOK_last (ws : List (List Nat))
    (hws : ∀ c ∈ ws, isCharEnc c = true) : StateOK (ws.getLastD []) [] := by
  left
  refine ⟨rfl, ?_⟩
  rcases ws.eq_nil_or_concat with rfl | ⟨ws2, w, hc⟩
  · exact Or.inl rfl
  · rw [List.concat_eq_append] at hc
    subst hc
    rw [List.getLastD_concat]
    exact Or.inr (hws w (by simp))

theorem chunksFrom_join {pend : List Nat} {cs chunks : List (List Nat)}
    (hd : ChunksFrom pend cs chunks) :
    joinAll chunks = pend ++ joinAll cs := by
  induction hd with
  | nil => rfl
  | bound pend ws cs chunks hsub ih =>
    rw [joinAll_cons, ih, joinAll_append]
    simp
  | split pend ws cs h t chunks hh ht hsub ih =>
    rw [joinAll_cons, ih, joinAll_append, joinAll_cons]
    simp

theorem feedGo_eq {pend : List Nat} {cs chunks : List (List Nat)}
    (hd : ChunksFrom pend cs chunks) :
    ∀ res : List Nat, (∀ c ∈ cs, isCharEnc c = true) → StateOK res pend →
      feedGo res chunks = res ++ joinAll chunks := by
  induction hd with
  | nil =>
    intro res _ hso
    simp only [feedGo]
    rw [receive_nil res hso]
    simp [joinAll_nil]
  | bound pend ws cs chunks hsub ih =>
    intro res hcs hso
    simp only [feedGo]
    rw [receive_bound res pend ws hso
      (fun c hc => hcs c (List.mem_append_left _ hc))]
    rw [ih (ws.getLastD []) (fun c hc => hcs c (List.mem_append_right _ hc))
      (stateOK_last ws (fun c hc => hcs c (List.mem_append_left _ hc)))]
    rw [joinAll_cons]
    have hws := joinAll_dropLast_getLastD ws
    rw [← hws]
    simp [List.append_assoc]
  | split pend ws cs h t chunks hh ht hsub ih =>
    intro res hcs hso
    have hht : isCharEnc (h ++ t) = true := hcs (h ++ t) (by simp)
    have hws : ∀ c ∈ ws, isCharEnc c = true :=
      fun c hc => hcs c (List.mem_append_left _ hc)
    simp only [feedGo]
    have hassoc : pend ++ joinAll ws ++ h = pend ++ (joinAll ws ++ h) :=
      List.append_assoc _ _ _
    rw [hassoc, receive_split res pend ws h t hso hws hht hh]
    rw [ih h (fun c hc => hcs c (by simp [hc])) (Or.inr ⟨ht, hh, hht⟩)]
    rw [joinAll_cons]
    simp [List.append_assoc]

/-- **C8** (corrected).  Feeding a valid UTF-8 string through
`ResidualStrBytes::receive_bytes` chunk by chunk (with a final empty-chunk
call) and concatenating the returned slices reproduces the string exactly,
PROVIDED every character's encoding spans at most two consecutive chunks
(the chunk list is generated by `ChunksFrom [] cs chunks` over the character
list `cs`).  The original claim's arbitrary byte boundaries are refuted by
`receive_bytes_spread_counterexample` below: a character spread over three
chunks is silently dropped, because the intermediate call flushes the
incomplete character through `from_utf8(..).unwrap_or("")`. -/
theorem receive_bytes_roundtrip (cs chunks : List (List Nat))
    (hcs : ∀ c ∈ cs, isCharEnc c = true)
    (hck : ChunksFrom [] cs chunks) :
    feedAll chunks = joinAll cs := by
  have h1 := feedGo_eq hck [] hcs (Or.inl ⟨rfl, Or.inl rfl⟩)
  show feedGo [] chunks = joinAll cs
  rw [h1, chunksFrom_join hck]
  simp

/-- **C8** counterexample to the unrestricted claim: the single character
U+0904 (bytes `E0 A4 84`) split into three one-byte chunks is lost
entirely — every call returns two empty slices although the input is valid
UTF-8. -/
theorem receive_bytes_spread_counterexample :
    validUtf8 [224, 164, 132] = true ∧
    feedAll [[224], [164], [132]] = [] ∧
    ([] : List Nat) ≠ [224, 164, 132] := by
  refine ⟨by decide, by decide, by decide⟩

/-- Witness for C8: `á é` (bytes `C3 A1 C3 A9`) chunked as
`[C3 A1 C3] [A9]` — the second character spans the two chunks — is
reassembled exactly. -/
theorem receive_bytes_roundtrip_witness :
    (∀ c ∈ [[195, 161], [195, 169]], isCharEnc c = true) ∧
    feedAll [[195, 161, 195], [169]] = joinAll [[195, 161], [195, 169]] := by
  refine ⟨by decide, ?_⟩
  exact receive_bytes_roundtrip [[195, 161], [195, 169]]
    [[195, 161, 195], [169]] (by decide)
    (ChunksFrom.split [] [[195, 161]] [] [195] [169] [[169]]
      (by decide) (by decide)
      (ChunksFrom.bound [169] [] [] [] ChunksFrom.nil))



/-! ### C9: undo/redo never touch the word database -/

theorem history_edits_word_database (b : BufferM)
    (sel : HistoryM → List Edit × HistoryM) :
    (b.history_edits sel).word_database = b.word_database := by
  rcases hsel : sel b.history with ⟨edits, h2⟩
  rcases happ : edits.foldl applyHistoryEdit (b.content, b.highlight_log)
    with ⟨c2, hl2⟩
  simp [BufferM.history_edits, hsel, happ]

/-- **C9** (confirmed).  `Buffer::undo` and `Buffer::redo` replay edits
against the content and highlight cache only and never touch the word
database: for every buffer state (any content, history, search ranges and
word database) the word database is unchanged by undo and by redo — the
replay loop in `history_edits` has no access to it — while
`Buffer::insert_text` does update it (inserting `cd` at the end of `ab`
replaces the word `ab` by `abcd`), and a concrete undo that deletes the
inserted identifier bytes changes the content back but leaves the word
database alone. -/
theorem undo_redo_word_database_frame :
    (∀ b : BufferM, (BufferM.undo b).word_database = b.word_database ∧
      (BufferM.redo b).word_database = b.word_database) ∧
    ((BufferM.insert_text ⟨[[97, 98]], [], ⟨[], [], []⟩, [[97, 98]], [],
        false⟩ ⟨0, 2⟩ [99, 100] 0).1.word_database = [[97, 98, 99, 100]] ∧
      [[97, 98, 99, 100]] ≠ ([[97, 98]] : List (List Nat))) ∧
    ((BufferM.undo ⟨[[97, 98, 99, 100]], [],
        ⟨[[⟨.Insert, ⟨⟨0, 2⟩, ⟨0, 4⟩⟩, [99, 100], 0⟩]], [], []⟩,
        [[97, 98, 99, 100]], [], false⟩).content = [[97, 98]] ∧
      (BufferM.undo ⟨[[97, 98, 99, 100]], [],
        ⟨[[⟨.Insert, ⟨⟨0, 2⟩, ⟨0, 4⟩⟩, [99, 100], 0⟩]], [], []⟩,
        [[97, 98, 99, 100]], [], false⟩).word_database =
        [[97, 98, 99, 100]]) :=
  ⟨fun b => ⟨history_edits_word_database b HistoryM.undo_edits,
    history_edits_word_database b HistoryM.redo_edits⟩,
    ⟨by decide, by decide⟩, ⟨by decide, by decide⟩⟩


end Pepper
